import Mathlib

/-!
Verification development for the GraphGarden federated graph assembly engine
(`packages/graphgarden-web/src/index.ts`).

The embedding mirrors the TypeScript source:

* `Json` models a decoded JSON value (the untrusted input of the validator);
* `isGraphGardenFile` is the protocol-file validator, translated check by check;
* `Graph` models the graphology graph used by the component: an insertion-ordered
  association list of nodes keyed by canonical URL string and of directed edges
  keyed by the ordered `(source, target)` pair.  `Graph.mergeNode` performs the
  library's upsert-with-shallow-attribute-merge, `Graph.mergeDirectedEdge` the
  library's directed-edge upsert (which also ensures both endpoints exist);
* `buildGraph` and the friend-merging functions are translated from the source,
  parameterised by the platform URL resolver (`new URL(ref, base).href`, which
  throws on unparseable input, modelled as an `Option`-valued function) and the
  origin extractor (`new URL(s).origin`).

Node provenance in the source is carried by the `color` attribute: declared
local nodes receive `localNodeColor`, nodes supplied by friend files receive
`friendNodeColor`, and a node created purely as an edge endpoint may carry no
color at all.
-/

namespace GraphGarden

/-- The well-known path fetched from every friend origin. -/
def WELL_KNOWN_PATH : String := "/.well-known/graphgarden.json"

/-- A whole number as a rational (JS numbers are only stored and compared by
the engine, never computed with; literal fractions keep them kernel-reducible). -/
def ratOf (n : Nat) : Rat := ⟨n, 1, one_ne_zero, Nat.coprime_one_right _⟩

/-- The value `0.5` as the reduced fraction `1/2`. -/
def ratHalf : Rat := ⟨1, 2, by norm_num, by norm_num⟩

/-- Rendering/merge configuration of the component (`GraphGardenConfig`). -/
structure GraphGardenConfig where
  localNodeColor : String
  friendNodeColor : String
  localEdgeColor : String
  friendEdgeColor : String
  labelColor : String
  nodeSize : Rat
  edgeSize : Rat
  labelSize : Rat
  iterations : Nat
deriving DecidableEq, Repr

/-- The source's `DEFAULT_CONFIG` constant. -/
def DEFAULT_CONFIG : GraphGardenConfig where
  localNodeColor := "#6366f1"
  friendNodeColor := "#f59e0b"
  localEdgeColor := "#94a3b8"
  friendEdgeColor := "#fbbf24"
  labelColor := "#334155"
  nodeSize := ratOf 4
  edgeSize := ratHalf
  labelSize := ratOf 12
  iterations := 200

/-- The two edge kinds admitted by the protocol. -/
inductive EdgeType where
  | internal
  | friend
deriving DecidableEq, Repr

/-- `GraphGardenSite`: site metadata of a protocol file. -/
structure GraphGardenSite where
  title : String
  description : Option String
  language : Option String
deriving DecidableEq, Repr

/-- `GraphGardenNode`: one declared page of a protocol file. -/
structure GraphGardenNode where
  url : String
  title : String
deriving DecidableEq, Repr

/-- `GraphGardenEdge`: one declared link of a protocol file. -/
structure GraphGardenEdge where
  source : String
  target : String
  type : EdgeType
deriving DecidableEq, Repr

/-- `GraphGardenFile`: the decoded, validated shape of a `graphgarden.json`. -/
structure GraphGardenFile where
  version : String
  generated_at : String
  base_url : String
  site : GraphGardenSite
  friends : List String
  nodes : List GraphGardenNode
  edges : List GraphGardenEdge
deriving DecidableEq, Repr

/-! ### Decoded JSON values and the validator -/

/-- A decoded JSON value, the input of `isGraphGardenFile`. -/
inductive Json where
  | null
  | bool (b : Bool)
  | num (q : Rat)
  | str (s : String)
  | arr (elems : List Json)
  | obj (fields : List (String × Json))

/-- JavaScript property access on a decoded value: `none` models `undefined`.
Decoded JSON objects have unique keys, so first-match lookup is exact. -/
def getProp (v : Json) (key : String) : Option Json :=
  match v with
  | .obj fields => (fields.find? (fun f => f.1 = key)).map (·.2)
  | _ => none

/-- The check `typeof v === "object" && v !== null` (arrays included). -/
def isObjectNonNull (v : Json) : Bool :=
  match v with
  | .obj _ => true
  | .arr _ => true
  | _ => false

/-- The check `typeof x === "string"` on a property (`none` = absent). -/
def isStr (v : Option Json) : Bool :=
  match v with
  | some (.str _) => true
  | _ => false

/-- The source's `isNode` runtime check. -/
def isNode (v : Json) : Bool :=
  isObjectNonNull v && isStr (getProp v "url") && isStr (getProp v "title")

/-- The source's `isEdge` runtime check. -/
def isEdge (v : Json) : Bool :=
  isObjectNonNull v && isStr (getProp v "source") && isStr (getProp v "target") &&
    (match getProp v "type" with
     | some (.str s) => s = "internal" || s = "friend"
     | _ => false)

/-- The source's `isGraphGardenFile` validator, check by check.  Note that the
`friends` check is `Array.isArray(obj.friends) && every string`: an absent
`friends` property fails it. -/
def isGraphGardenFile (value : Json) : Bool :=
  isObjectNonNull value &&
  isStr (getProp value "version") &&
  isStr (getProp value "generated_at") &&
  isStr (getProp value "base_url") &&
  (match getProp value "site" with
   | some site =>
     isObjectNonNull site && isStr (getProp site "title") &&
     (match getProp site "description" with
      | none => true
      | some (.str _) => true
      | some _ => false) &&
     (match getProp site "language" with
      | none => true
      | some (.str _) => true
      | some _ => false)
   | none => false) &&
  (match getProp value "friends" with
   | some (.arr fs) => fs.all (fun f => match f with | .str _ => true | _ => false)
   | _ => false) &&
  (match getProp value "nodes" with
   | some (.arr ns) => ns.all isNode
   | _ => false) &&
  (match getProp value "edges" with
   | some (.arr es) => es.all isEdge
   | _ => false)

/-- String content of a property, `""` when absent or non-string.  Only used on
validated input, where the property is always a present string. -/
def strProp (v : Option Json) : String :=
  match v with
  | some (.str s) => s
  | _ => ""

/-- Optional string content of a property. -/
def optStrProp (v : Option Json) : Option String :=
  match v with
  | some (.str s) => some s
  | _ => none

/-- Array content of a property, `[]` when absent or non-array. -/
def arrProp (v : Option Json) : List Json :=
  match v with
  | some (.arr xs) => xs
  | _ => []

/-- The typed view of a validated node entry (in TS this is just a cast). -/
def nodeOfJson (j : Json) : GraphGardenNode where
  url := strProp (getProp j "url")
  title := strProp (getProp j "title")

/-- The typed view of a validated edge entry (in TS this is just a cast). -/
def edgeOfJson (j : Json) : GraphGardenEdge where
  source := strProp (getProp j "source")
  target := strProp (getProp j "target")
  type := if getProp j "type" |>.any (fun t => match t with | .str s => s = "friend" | _ => false)
          then .friend else .internal

/-- The typed view of a validated protocol file (in TS the decoded value is
used directly after the `value is GraphGardenFile` type guard). -/
def fileOfJson (j : Json) : GraphGardenFile where
  version := strProp (getProp j "version")
  generated_at := strProp (getProp j "generated_at")
  base_url := strProp (getProp j "base_url")
  site :=
    { title := strProp ((getProp j "site").bind (fun s => getProp s "title"))
      description := optStrProp ((getProp j "site").bind (fun s => getProp s "description"))
      language := optStrProp ((getProp j "site").bind (fun s => getProp s "language")) }
  friends := (arrProp (getProp j "friends")).map (fun f => strProp (some f))
  nodes := (arrProp (getProp j "nodes")).map nodeOfJson
  edges := (arrProp (getProp j "edges")).map edgeOfJson

/-! ### The graph store -/

/-- Attributes stored on a node.  Each field is optional: a graphology node
only carries the attributes some merge has written.  The same shape doubles as
a partial attribute write (absent fields are left untouched by a merge). -/
structure NodeAttrs where
  title : Option String
  label : Option String
  color : Option String
  size : Option Rat
deriving DecidableEq, Repr

/-- The write carrying no attributes (`mergeNode(key)` with no payload). -/
def NodeAttrs.empty : NodeAttrs where
  title := none
  label := none
  color := none
  size := none

/-- Field-level overwrite: a supplied value replaces the stored one. -/
def ow {α : Type} (w old : Option α) : Option α :=
  match w with
  | some x => some x
  | none => old

/-- Shallow attribute merge performed by graphology's `mergeNode`: fields
present in the write `w` overwrite, the rest of `old` is kept. -/
def NodeAttrs.mergeWith (old w : NodeAttrs) : NodeAttrs where
  title := ow w.title old.title
  label := ow w.label old.label
  color := ow w.color old.color
  size := ow w.size old.size

/-- Attributes stored on a directed edge.  The source always writes all three
fields, so an edge merge is a full overwrite. -/
structure EdgeAttrs where
  type : EdgeType
  color : String
  size : Rat
deriving DecidableEq, Repr

/-- Insertion-ordered association-list upsert: update the entry in place when
the key is present, append it otherwise. -/
def upsert {κ β : Type} [DecidableEq κ] (k : κ) (f : Option β → β) :
    List (κ × β) → List (κ × β)
  | [] => [(k, f none)]
  | (k', v) :: rest =>
    if k = k' then (k', f (some v)) :: rest else (k', v) :: upsert k f rest

/-- First-match association-list lookup. -/
def alookup {κ β : Type} [DecidableEq κ] (k : κ) : List (κ × β) → Option β
  | [] => none
  | (k', v) :: rest => if k = k' then some v else alookup k rest

/-- The graphology `Graph` as used by the component: graph-level attributes
(`base_url`, `site`, set by `replaceAttributes`), nodes keyed by canonical URL
and directed edges keyed by the ordered endpoint pair, both insertion-ordered
and duplicate-free by construction. -/
structure Graph where
  base_url : Option String
  site : Option GraphGardenSite
  nodes : List (String × NodeAttrs)
  edges : List ((String × String) × EdgeAttrs)
deriving DecidableEq, Repr

/-- graphology `graph.mergeNode(key, attrs)`: create the node if absent,
shallow-merge the supplied attributes otherwise. -/
def Graph.mergeNode (g : Graph) (key : String) (w : NodeAttrs) : Graph :=
  { g with nodes := upsert key (fun old => (old.getD NodeAttrs.empty).mergeWith w) g.nodes }

/-- graphology `graph.mergeDirectedEdge(source, target, attrs)`: ensure both
endpoints exist (creating attribute-less nodes when absent), then create or
overwrite the directed edge.  All call sites supply every edge attribute, so
the library's shallow merge is a full overwrite here. -/
def Graph.mergeDirectedEdge (g : Graph) (source target : String) (a : EdgeAttrs) : Graph :=
  let g' := (g.mergeNode source NodeAttrs.empty).mergeNode target NodeAttrs.empty
  { g' with edges := upsert (source, target) (fun _ => a) g'.edges }

/-- Node lookup by canonical URL. -/
def Graph.nodeAttrs (g : Graph) (key : String) : Option NodeAttrs :=
  alookup key g.nodes

/-- Directed-edge lookup by ordered endpoint pair. -/
def Graph.edgeAttrs (g : Graph) (source target : String) : Option EdgeAttrs :=
  alookup (source, target) g.edges

/-- The color attribute of a node, the carrier of its provenance. -/
def Graph.nodeColor (g : Graph) (key : String) : Option String :=
  (g.nodeAttrs key).bind (·.color)

/-! ### A concrete model of the platform URL parser

The source uses the browser builtin `new URL(...)`, which throws on
unparseable input.  The theorems below are generic in the resolver; this
executable model (sufficient for absolute `scheme://host/path` URLs and
path-absolute references, the shapes exercised by the protocol) instantiates
them in witnesses and counterexamples. -/

/-- Split a character list at the first `://`, returning scheme and rest. -/
def schemeSplit : List Char → Option (List Char × List Char)
  | [] => none
  | ':' :: '/' :: '/' :: rest => some ([], rest)
  | c :: rest => (schemeSplit rest).map (fun p => (c :: p.1, p.2))

/-- Parse an absolute URL into scheme, host and path components. -/
def parseAbs (s : String) : Option (String × String × String) :=
  match schemeSplit s.data with
  | none => none
  | some (scheme, rest) =>
    if scheme = [] then none
    else
      let host := rest.takeWhile (fun c => c ≠ '/')
      let path := rest.dropWhile (fun c => c ≠ '/')
      if host = [] then none
      else some (String.mk scheme, String.mk host, String.mk path)

/-- Model of `new URL(s).origin`: the scheme+host origin of an absolute URL. -/
def urlOriginM (s : String) : Option String :=
  (parseAbs s).map (fun p => p.1 ++ "://" ++ p.2.1)

/-- Model of `new URL(s).href` for an absolute URL (an empty path serialises
as `/`). -/
def urlHrefM (s : String) : Option String :=
  (parseAbs s).map (fun p => p.1 ++ "://" ++ p.2.1 ++ (if p.2.2 = "" then "/" else p.2.2))

/-- Model of `new URL(ref, base).href`: an absolute reference is normalised
ignoring the base, a path-absolute reference is resolved against the base's
origin, anything else is out of scope of the model and fails. -/
def resolveM (ref base : String) : Option String :=
  match urlHrefM ref with
  | some h => some h
  | none =>
    match ref.data with
    | '/' :: _ => (urlOriginM base).map (fun o => o ++ ref)
    | _ => none

/-! ### `buildGraph` (the local build) -/

section Engine

variable (resolve : String → String → Option String)
variable (originOf : String → Option String)

/-- The attribute write of a self-declared node (`buildGraph`, nodes loop). -/
def localNodeWrite (config : GraphGardenConfig) (title : String) : NodeAttrs where
  title := some title
  label := some title
  color := some config.localNodeColor
  size := some config.nodeSize

/-- The attribute write of an edge source (`mergeNode(absoluteSource, ...)`). -/
def sourceWrite (config : GraphGardenConfig) : NodeAttrs where
  title := none
  label := none
  color := none
  size := some config.nodeSize

/-- The attribute write of an edge target: the conditional spread adds
`friendNodeColor` exactly when the edge is friend-typed. -/
def targetWrite (config : GraphGardenConfig) (t : EdgeType) : NodeAttrs where
  title := none
  label := none
  color := if t = .friend then some config.friendNodeColor else none
  size := some config.nodeSize

/-- The edge attributes written by `buildGraph` (color depends on edge type). -/
def localEdgeAttrs (config : GraphGardenConfig) (t : EdgeType) : EdgeAttrs where
  type := t
  color := if t = .friend then config.friendEdgeColor else config.localEdgeColor
  size := config.edgeSize

/-- The nodes loop of `buildGraph`.  `new URL` failures propagate (there is no
try/catch in `buildGraph`), modelled by `Except`. -/
def buildNodes (config : GraphGardenConfig) (base : String) :
    Graph → List GraphGardenNode → Except Unit Graph
  | g, [] => .ok g
  | g, n :: rest =>
    match resolve n.url base with
    | none => .error ()
    | some absoluteUrl =>
      buildNodes config base (g.mergeNode absoluteUrl (localNodeWrite config n.title)) rest

/-- The edges loop of `buildGraph`: merge both endpoints, then the edge. -/
def buildEdges (config : GraphGardenConfig) (base : String) :
    Graph → List GraphGardenEdge → Except Unit Graph
  | g, [] => .ok g
  | g, e :: rest =>
    match resolve e.source base, resolve e.target base with
    | some absoluteSource, some absoluteTarget =>
      let g := g.mergeNode absoluteSource (sourceWrite config)
      let g := g.mergeNode absoluteTarget (targetWrite config e.type)
      let g := g.mergeDirectedEdge absoluteSource absoluteTarget (localEdgeAttrs config e.type)
      buildEdges config base g rest
    | _, _ => .error ()

/-- The two loops of `buildGraph` applied to an arbitrary starting graph (the
edges loop only runs when the nodes loop completed; an error propagates). -/
def applySelfFile (config : GraphGardenConfig) (file : GraphGardenFile) (g : Graph) :
    Except Unit Graph :=
  match buildNodes resolve config file.base_url g file.nodes with
  | .error e => .error e
  | .ok g' => buildEdges resolve config file.base_url g' file.edges

/-- The source's `buildGraph`: a fresh graph whose graph-level attributes are
replaced by the file's `base_url` and `site`, populated by the two loops.  An
unparseable URL makes the whole build fail (the exception is only caught by
`connectedCallback`'s outer handler). -/
def buildGraph (config : GraphGardenConfig) (file : GraphGardenFile) : Except Unit Graph :=
  applySelfFile resolve config file
    { base_url := some file.base_url, site := some file.site, nodes := [], edges := [] }

/-! ### `fetchFriendGraphs` (the friend fetch orchestrator) -/

/-- The attribute write of a friend-declared node (`fetchFriendGraphs`,
nodes loop): note the color is `friendNodeColor`. -/
def friendNodeWrite (config : GraphGardenConfig) (title : String) : NodeAttrs where
  title := some title
  label := some title
  color := some config.friendNodeColor
  size := some config.nodeSize

/-- The edge attributes written while merging a friend file: the color is
always `friendEdgeColor`, whatever the edge type. -/
def friendEdgeAttrs (config : GraphGardenConfig) (t : EdgeType) : EdgeAttrs where
  type := t
  color := config.friendEdgeColor
  size := config.edgeSize

/-- One iteration of the friends-to-origins loop of `fetchFriendGraphs`: a
JavaScript `Set` keeps first-insertion order and drops duplicates; an entry
whose URL does not parse is skipped with a warning. -/
def originsStep (acc : List String) (friend : String) : List String :=
  match originOf friend with
  | none => acc
  | some origin => if origin ∈ acc then acc else acc ++ [origin]

/-- The friends-to-origins loop of `fetchFriendGraphs`. -/
def fetchOrigins (friends : List String) : List String :=
  friends.foldl (originsStep originOf) []

/-- The outbound request URLs: one per distinct origin. -/
def fetchUrls (friends : List String) : List String :=
  (fetchOrigins originOf friends).map (fun origin => origin ++ WELL_KNOWN_PATH)

/-- The nodes loop of the friend merge.  A resolution failure aborts the loop;
the `.error` carries the partially merged graph (the source's per-file
try/catch keeps every mutation made before the throw). -/
def mergeFriendNodes (config : GraphGardenConfig) (base : String) :
    Graph → List GraphGardenNode → Except Graph Graph
  | g, [] => .ok g
  | g, n :: rest =>
    match resolve n.url base with
    | none => .error g
    | some absoluteUrl =>
      mergeFriendNodes config base (g.mergeNode absoluteUrl (friendNodeWrite config n.title)) rest

/-- The edges loop of the friend merge, same failure convention. -/
def mergeFriendEdges (config : GraphGardenConfig) (base : String) :
    Graph → List GraphGardenEdge → Except Graph Graph
  | g, [] => .ok g
  | g, e :: rest =>
    match resolve e.source base, resolve e.target base with
    | some absoluteSource, some absoluteTarget =>
      let g := g.mergeNode absoluteSource (sourceWrite config)
      let g := g.mergeNode absoluteTarget (targetWrite config e.type)
      let g := g.mergeDirectedEdge absoluteSource absoluteTarget (friendEdgeAttrs config e.type)
      mergeFriendEdges config base g rest
    | _, _ => .error g

/-- Merge one fetched, validated friend file into the store: the source wraps
both loops in one try/catch, so a failure keeps everything merged so far and
moves on to the next result. -/
def mergeFriendFile (config : GraphGardenConfig) (file : GraphGardenFile) (g : Graph) : Graph :=
  match mergeFriendNodes resolve config file.base_url g file.nodes with
  | .error g' => g'
  | .ok g' =>
    match mergeFriendEdges resolve config file.base_url g' file.edges with
    | .error g'' => g''
    | .ok g'' => g''

/-- One iteration of the results loop of `fetchFriendGraphs`: a rejected
fetch, non-OK response or invalid body (already turned into `none`) is
skipped, a surviving file is merged. -/
def mergeResult (config : GraphGardenConfig) (g : Graph) :
    Option GraphGardenFile → Graph
  | none => g
  | some friendFile => mergeFriendFile resolve config friendFile g

/-- The results loop of `fetchFriendGraphs`, merging each surviving file in
settled-results order. -/
def mergeResults (config : GraphGardenConfig) (g : Graph)
    (results : List (Option GraphGardenFile)) : Graph :=
  results.foldl (mergeResult resolve config) g

/-- The outcome of one origin's fetch, before the response pipeline. -/
inductive FetchResult where
  | rejected
  | httpError (status : Nat)
  | body (j : Json)

/-- The per-origin response pipeline of `fetchFriendGraphs`: a rejected fetch
or non-OK status yields nothing, a body is validated and decoded. -/
def settleOrigin (r : FetchResult) : Option GraphGardenFile :=
  match r with
  | .rejected => none
  | .httpError _ => none
  | .body j => if isGraphGardenFile j then some (fileOfJson j) else none

/-- The source's `fetchFriendGraphs`: deduplicate the declared friends by
origin, fetch each origin (`responses` gives each origin's outcome;
`Promise.allSettled` preserves input order, so results are processed in origin
order regardless of settling order), then merge the surviving files. -/
def fetchFriendGraphs (config : GraphGardenConfig) (g : Graph) (friends : List String)
    (responses : String → FetchResult) : Graph :=
  mergeResults resolve config g
    ((fetchOrigins originOf friends).map (fun origin => settleOrigin (responses origin)))

/-! ### The assembly controller (`connectedCallback` data path) -/

/-- The friend-fetch request URLs issued by `connectedCallback` for a decoded
self body: validation gates the whole pipeline, and the fetch phase is driven
by `data.friends` alone (there is no fallback derived from friend edges). -/
def connectedFetches (body : Json) : List String :=
  if isGraphGardenFile body then fetchUrls originOf (fileOfJson body).friends else []

/-- The graph produced by `connectedCallback` for a decoded self body, or
`none` when validation or the local build fails (the outer catch logs the
error and leaves `this.graph` null). -/
def connectedLoad (config : GraphGardenConfig) (body : Json)
    (responses : String → FetchResult) : Option Graph :=
  if isGraphGardenFile body then
    match buildGraph resolve config (fileOfJson body) with
    | .error _ => none
    | .ok g =>
      some (fetchFriendGraphs resolve originOf config g (fileOfJson body).friends responses)
  else none

end Engine

/-! ### Writes: the elementary mutations performed on the store

Every mutation the engine performs is a `mergeNode` or a `mergeDirectedEdge`
whose payload depends only on the file being merged and the configuration,
never on the current graph.  Factoring each merged file into its list of
writes lets every claim be settled through one lookup characterisation. -/

/-- One elementary store mutation. -/
inductive Write where
  | node (key : String) (w : NodeAttrs)
  | edge (src tgt : String) (a : EdgeAttrs)
deriving DecidableEq, Repr

/-- Apply one write to the store. -/
def Graph.applyWrite (g : Graph) : Write → Graph
  | .node k w => g.mergeNode k w
  | .edge s t a => g.mergeDirectedEdge s t a

/-- Apply a list of writes in order. -/
def Graph.applyWrites (g : Graph) (ws : List Write) : Graph :=
  ws.foldl Graph.applyWrite g

section FileWrites

variable (resolve : String → String → Option String)

/-- The node writes of one file's nodes loop, resolved in order and truncated
at the first resolution failure; the flag records whether the loop completed. -/
def declWrites (declW : String → NodeAttrs) (base : String) :
    List GraphGardenNode → List Write × Bool
  | [] => ([], true)
  | n :: rest =>
    match resolve n.url base with
    | none => ([], false)
    | some u =>
      let p := declWrites declW base rest
      (.node u (declW n.title) :: p.1, p.2)

/-- The writes of one file's edges loop (two endpoint merges then the edge),
resolved in order and truncated at the first resolution failure. -/
def edgeLoopWrites (config : GraphGardenConfig) (eAttrs : EdgeType → EdgeAttrs)
    (base : String) : List GraphGardenEdge → List Write × Bool
  | [] => ([], true)
  | e :: rest =>
    match resolve e.source base, resolve e.target base with
    | some s, some t =>
      let p := edgeLoopWrites config eAttrs base rest
      (.node s (sourceWrite config) :: .node t (targetWrite config e.type) ::
        .edge s t (eAttrs e.type) :: p.1, p.2)
    | _, _ => ([], false)

/-- All writes performed while merging one fetched friend file (the edges loop
only runs when the nodes loop completed). -/
def fileWrites (config : GraphGardenConfig) (file : GraphGardenFile) : List Write :=
  let pn := declWrites resolve (friendNodeWrite config) file.base_url file.nodes
  if pn.2 then
    pn.1 ++ (edgeLoopWrites resolve config (friendEdgeAttrs config) file.base_url file.edges).1
  else pn.1

/-- All writes of the self build, with its completion flag (`buildGraph` has
no try/catch, so an incomplete build produces no graph at all). -/
def selfWrites (config : GraphGardenConfig) (file : GraphGardenFile) : List Write × Bool :=
  let pn := declWrites resolve (localNodeWrite config) file.base_url file.nodes
  if pn.2 then
    let pe := edgeLoopWrites resolve config (localEdgeAttrs config) file.base_url file.edges
    (pn.1 ++ pe.1, pe.2)
  else (pn.1, false)

/-- The writes contributed by one settled fetch result. -/
def resultWrites (config : GraphGardenConfig) : Option GraphGardenFile → List Write
  | none => []
  | some f => fileWrites resolve config f

end FileWrites

/-! ### Per-key characterisation of write application -/

/-- The node-attribute writes a single write performs on key `k` (a directed
edge merge ensures both endpoints with an empty attribute write). -/
def nodeWritesOf (k : String) : Write → List NodeAttrs
  | .node k' w => if k' = k then [w] else []
  | .edge s t _ =>
    (if s = k then [NodeAttrs.empty] else []) ++ (if t = k then [NodeAttrs.empty] else [])

/-- All node-attribute writes a write list performs on key `k`. -/
def nodeWritesAt (k : String) (ws : List Write) : List NodeAttrs :=
  ws.flatMap (nodeWritesOf k)

/-- The edge-attribute writes a single write performs on the pair `p`. -/
def edgeWritesOf (p : String × String) : Write → List EdgeAttrs
  | .edge s t a => if (s, t) = p then [a] else []
  | .node _ _ => []

/-- All edge-attribute writes a write list performs on the pair `p`. -/
def edgeWritesAt (p : String × String) (ws : List Write) : List EdgeAttrs :=
  ws.flatMap (edgeWritesOf p)

/-- Fold a sequence of node-attribute writes over an optional stored value. -/
def NWfold (l : List NodeAttrs) (v : Option NodeAttrs) : Option NodeAttrs :=
  l.foldl (fun acc w => some ((acc.getD NodeAttrs.empty).mergeWith w)) v

/-- Fold a sequence of edge-attribute writes (full overwrites). -/
def EWfold (l : List EdgeAttrs) (v : Option EdgeAttrs) : Option EdgeAttrs :=
  l.foldl (fun _ a => some a) v

/-- Fold a sequence of optional field writes (field-level view of `NWfold`). -/
def ffold {α : Type} (l : List (Option α)) (v : Option α) : Option α :=
  l.foldl (fun acc w => ow w acc) v

/-- The node keys a write touches. -/
def Write.nodeKeysOf : Write → List String
  | .node k _ => [k]
  | .edge s t _ => [s, t]

/-- All node keys a write list touches. -/
def nodeTouched (ws : List Write) : List String :=
  ws.flatMap Write.nodeKeysOf

/-- The edge keys a write touches. -/
def Write.edgeKeysOf : Write → List (String × String)
  | .node _ _ => []
  | .edge s t _ => [(s, t)]

/-- All edge keys a write list touches. -/
def edgeTouched (ws : List Write) : List (String × String) :=
  ws.flatMap Write.edgeKeysOf

/-- The keys of an association list. -/
def keys {κ β : Type} (l : List (κ × β)) : List κ :=
  l.map Prod.fst

/-! ### Compatibility: when two write sequences commute -/

/-- Two optional field writes agree wherever both are present. -/
def OptCompat {α : Type} (x y : Option α) : Prop :=
  x = none ∨ y = none ∨ x = y

instance {α : Type} [DecidableEq α] (x y : Option α) : Decidable (OptCompat x y) :=
  inferInstanceAs (Decidable (_ ∨ _ ∨ _))

/-- Two node-attribute writes agree on every field both of them set. -/
def NodeAttrs.Compat (a b : NodeAttrs) : Prop :=
  OptCompat a.title b.title ∧ OptCompat a.label b.label ∧
    OptCompat a.color b.color ∧ OptCompat a.size b.size

instance (a b : NodeAttrs) : Decidable (a.Compat b) :=
  inferInstanceAs (Decidable (_ ∧ _ ∧ _ ∧ _))

/-- Two writes commute: node writes to the same key must have compatible
attributes, edge writes to the same pair must be identical. -/
def Write.Compat : Write → Write → Prop
  | .node k a, .node k' b => k = k' → NodeAttrs.Compat a b
  | .edge s t a, .edge s' t' b => s = s' → t = t' → a = b
  | _, _ => True

instance (w₁ w₂ : Write) : Decidable (w₁.Compat w₂) := by
  cases w₁ <;> cases w₂ <;> unfold Write.Compat <;> infer_instance

/-- Every write of one settled result commutes with every write of another. -/
def ResultCompat (resolve : String → String → Option String) (config : GraphGardenConfig)
    (r₁ r₂ : Option GraphGardenFile) : Prop :=
  ∀ w₁ ∈ resultWrites resolve config r₁, ∀ w₂ ∈ resultWrites resolve config r₂,
    w₁.Compat w₂

instance (resolve : String → String → Option String) (config : GraphGardenConfig)
    (r₁ r₂ : Option GraphGardenFile) : Decidable (ResultCompat resolve config r₁ r₂) :=
  inferInstanceAs (Decidable (∀ _ ∈ _, ∀ _ ∈ _, _))

/-- Content equality of two stores: same graph-level attributes, same node
attributes at every key, same edge attributes at every ordered pair. -/
def Graph.ContentEq (g₁ g₂ : Graph) : Prop :=
  g₁.base_url = g₂.base_url ∧ g₁.site = g₂.site ∧
    (∀ k, g₁.nodeAttrs k = g₂.nodeAttrs k) ∧
    (∀ s t, g₁.edgeAttrs s t = g₂.edgeAttrs s t)

/-- Occurrence count of a string in a list (used to state fetch uniqueness). -/
def countOcc (u : String) : List String → Nat
  | [] => 0
  | a :: rest => (if a = u then 1 else 0) + countOcc u rest

/-- The empty graphology graph (`new Graph()`). -/
def emptyGraph : Graph where
  base_url := none
  site := none
  nodes := []
  edges := []

/-! ### Concrete test fixtures (the spec's running scenario and variants) -/

/-- Site metadata of the scenario's local file. -/
def localSite : GraphGardenSite where
  title := "Local"
  description := none
  language := none

/-- The spec scenario's self file: one page, one friend edge, one friend. -/
def localTestFile : GraphGardenFile where
  version := "0.1.0"
  generated_at := "2025-01-01T00:00:00Z"
  base_url := "https://local.test/"
  site := localSite
  friends := ["https://friend.test/"]
  nodes := [{ url := "/", title := "Home" }]
  edges := [{ source := "/", target := "https://friend.test/", type := .friend }]

/-- The graph `buildGraph` produces for `localTestFile` under the default
configuration (checked against `buildGraph` in the claim theorems). -/
def localGraph : Graph where
  base_url := some "https://local.test/"
  site := some localSite
  nodes :=
    [("https://local.test/",
      { title := some "Home", label := some "Home", color := some "#6366f1",
        size := some (ratOf 4) }),
     ("https://friend.test/",
      { title := none, label := none, color := some "#f59e0b", size := some (ratOf 4) })]
  edges :=
    [(("https://local.test/", "https://friend.test/"),
      { type := .friend, color := "#fbbf24", size := ratHalf })]

/-- The scenario's friend file served by `https://friend.test/`. -/
def friendTestFile : GraphGardenFile where
  version := "0.1.0"
  generated_at := "2025-01-01T00:00:00Z"
  base_url := "https://friend.test/"
  site := { title := "Friend Site", description := none, language := none }
  friends := []
  nodes := [{ url := "/", title := "Friend Home" }, { url := "/blog/", title := "Friend Blog" }]
  edges := [{ source := "/", target := "/blog/", type := .internal }]

/-- A friend file that declares the local site's canonical URL as one of its
own nodes (absolute node URLs pass validation and resolution). -/
def localDeclFriendFile : GraphGardenFile where
  version := "0.1.0"
  generated_at := "2025-01-01T00:00:00Z"
  base_url := "https://friend.test/"
  site := { title := "Friend Site", description := none, language := none }
  friends := []
  nodes := [{ url := "https://local.test/", title := "Me" }]
  edges := []

/-- A self file whose second node URL cannot be parsed (`http://` has an
empty host, so `new URL` throws). -/
def badUrlFile : GraphGardenFile where
  version := "0.1.0"
  generated_at := "2025-01-01T00:00:00Z"
  base_url := "https://local.test/"
  site := localSite
  friends := []
  nodes := [{ url := "/good", title := "Good" }, { url := "http://", title := "Bad" }]
  edges := []

/-- A fetched friend file with three declared nodes whose middle URL cannot
be parsed: the merge stops there, keeping the first node. -/
def partialFriendFile : GraphGardenFile where
  version := "0.1.0"
  generated_at := "2025-01-01T00:00:00Z"
  base_url := "https://friend.test/"
  site := { title := "Friend Site", description := none, language := none }
  friends := []
  nodes := [{ url := "/first", title := "First" }, { url := "http://", title := "Bad" },
    { url := "/last", title := "Last" }]
  edges := []

/-- A fetched friend file whose nodes all resolve and whose second edge has
an unparseable target URL: the edges loop stops there, keeping the declared
node and the first edge. -/
def partialEdgeFile : GraphGardenFile where
  version := "0.1.0"
  generated_at := "2025-01-01T00:00:00Z"
  base_url := "https://friend.test/"
  site := { title := "Friend Site", description := none, language := none }
  friends := []
  nodes := [{ url := "/", title := "Home" }]
  edges := [{ source := "/", target := "/ok", type := .internal },
    { source := "/", target := "http://", type := .friend },
    { source := "/", target := "/after", type := .internal }]

/-- A validator-accepted friend file whose `base_url` is the empty string:
every URL resolution against it fails. -/
def emptyBaseFile : GraphGardenFile where
  version := "0.1.0"
  generated_at := "2025-01-01T00:00:00Z"
  base_url := ""
  site := { title := "Bad", description := none, language := none }
  friends := []
  nodes := [{ url := "/page", title := "Page" }]
  edges := []

/-- A decoded self body that declares a friend-typed edge but no `friends`
field (the shape the package's own test suite calls valid). -/
def noFriendsBody : Json :=
  .obj
    [("version", .str "0.1.0"),
     ("generated_at", .str "2025-01-01T00:00:00Z"),
     ("base_url", .str "https://local.test/"),
     ("site", .obj [("title", .str "Local")]),
     ("nodes", .arr [.obj [("url", .str "/"), ("title", .str "Home")]]),
     ("edges", .arr [.obj [("source", .str "/"), ("target", .str "https://friend.test/"),
       ("type", .str "friend")]])]

/-- The same body with an explicit `friends` list of strings. -/
def withFriendsBody : Json :=
  .obj
    [("version", .str "0.1.0"),
     ("generated_at", .str "2025-01-01T00:00:00Z"),
     ("base_url", .str "https://local.test/"),
     ("site", .obj [("title", .str "Local")]),
     ("friends", .arr [.str "https://friend.test/"]),
     ("nodes", .arr [.obj [("url", .str "/"), ("title", .str "Home")]]),
     ("edges", .arr [.obj [("source", .str "/"), ("target", .str "https://friend.test/"),
       ("type", .str "friend")]])]

/-- The same body with an explicit empty `friends` list (still declaring a
friend-typed edge). -/
def emptyFriendsBody : Json :=
  .obj
    [("version", .str "0.1.0"),
     ("generated_at", .str "2025-01-01T00:00:00Z"),
     ("base_url", .str "https://local.test/"),
     ("site", .obj [("title", .str "Local")]),
     ("friends", .arr []),
     ("nodes", .arr [.obj [("url", .str "/"), ("title", .str "Home")]]),
     ("edges", .arr [.obj [("source", .str "/"), ("target", .str "https://friend.test/"),
       ("type", .str "friend")]])]

/-- The same body with a `friends` array containing a non-string entry. -/
def badFriendsBody : Json :=
  .obj
    [("version", .str "0.1.0"),
     ("generated_at", .str "2025-01-01T00:00:00Z"),
     ("base_url", .str "https://local.test/"),
     ("site", .obj [("title", .str "Local")]),
     ("friends", .arr [.str "https://friend.test/", .num 42]),
     ("nodes", .arr [.obj [("url", .str "/"), ("title", .str "Home")]]),
     ("edges", .arr [.obj [("source", .str "/"), ("target", .str "https://friend.test/"),
       ("type", .str "friend")]])]

/-- A friend file declaring its own page at `https://x.test/`. -/
def fileX : GraphGardenFile where
  version := "0.1.0"
  generated_at := "2025-01-01T00:00:00Z"
  base_url := "https://x.test/"
  site := { title := "X", description := none, language := none }
  friends := []
  nodes := [{ url := "/", title := "X Title" }]
  edges := []

/-- A friend file declaring the very same canonical URL with another title. -/
def fileY : GraphGardenFile where
  version := "0.1.0"
  generated_at := "2025-01-01T00:00:00Z"
  base_url := "https://y.test/"
  site := { title := "Y", description := none, language := none }
  friends := []
  nodes := [{ url := "https://x.test/", title := "Y Title" }]
  edges := []

/-! ### Association-list lemmas -/

@[simp] theorem keys_nil {κ β : Type} : keys ([] : List (κ × β)) = [] := rfl

@[simp] theorem keys_cons {κ β : Type} (k : κ) (v : β) (l : List (κ × β)) :
    keys ((k, v) :: l) = k :: keys l := rfl

theorem alookup_upsert {κ β : Type} [DecidableEq κ] (k k' : κ) (f : Option β → β)
    (l : List (κ × β)) :
    alookup k' (upsert k f l) = if k' = k then some (f (alookup k l)) else alookup k' l := by
  induction l with
  | nil =>
    by_cases h : k' = k <;> simp [upsert, alookup, h]
  | cons hd tl ih =>
    obtain ⟨k₀, v₀⟩ := hd
    by_cases h₁ : k = k₀
    · subst h₁
      by_cases h₂ : k' = k <;> simp [upsert, alookup, h₂]
    · by_cases h₂ : k' = k₀
      · subst h₂
        simp [upsert, alookup, h₁, Ne.symm h₁, ih]
      · simp [upsert, alookup, h₁, h₂, ih]

theorem keys_upsert_of_mem {κ β : Type} [DecidableEq κ] {k : κ} (f : Option β → β)
    {l : List (κ × β)} (h : k ∈ keys l) : keys (upsert k f l) = keys l := by
  induction l with
  | nil => simp at h
  | cons hd tl ih =>
    obtain ⟨k₀, v₀⟩ := hd
    by_cases h₁ : k = k₀
    · simp [upsert, h₁]
    · simp only [keys_cons, List.mem_cons] at h
      rcases h with h | h
      · exact absurd h h₁
      · simp [upsert, h₁, ih h]

theorem keys_upsert_of_not_mem {κ β : Type} [DecidableEq κ] {k : κ} (f : Option β → β)
    {l : List (κ × β)} (h : k ∉ keys l) : keys (upsert k f l) = keys l ++ [k] := by
  induction l with
  | nil => simp [upsert]
  | cons hd tl ih =>
    obtain ⟨k₀, v₀⟩ := hd
    simp only [keys_cons, List.mem_cons, not_or] at h
    simp [upsert, h.1, ih h.2]

theorem mem_keys_upsert {κ β : Type} [DecidableEq κ] (k : κ) (f : Option β → β)
    (l : List (κ × β)) : k ∈ keys (upsert k f l) := by
  by_cases h : k ∈ keys l
  · rw [keys_upsert_of_mem f h]; exact h
  · rw [keys_upsert_of_not_mem f h]; simp

theorem keys_upsert_superset {κ β : Type} [DecidableEq κ] {k k' : κ} (f : Option β → β)
    {l : List (κ × β)} (h : k' ∈ keys l) : k' ∈ keys (upsert k f l) := by
  by_cases hm : k ∈ keys l
  · rwa [keys_upsert_of_mem f hm]
  · rw [keys_upsert_of_not_mem f hm]; simp [h]

theorem nodup_keys_upsert {κ β : Type} [DecidableEq κ] (k : κ) (f : Option β → β)
    {l : List (κ × β)} (h : (keys l).Nodup) : (keys (upsert k f l)).Nodup := by
  by_cases hm : k ∈ keys l
  · rwa [keys_upsert_of_mem f hm]
  · rw [keys_upsert_of_not_mem f hm]
    simpa [List.nodup_append] using ⟨h, hm⟩

theorem alookup_isSome_iff_mem {κ β : Type} [DecidableEq κ] (k : κ) (l : List (κ × β)) :
    (alookup k l).isSome ↔ k ∈ keys l := by
  induction l with
  | nil => simp [alookup]
  | cons hd tl ih =>
    obtain ⟨k₀, v₀⟩ := hd
    by_cases h : k = k₀ <;> simp [alookup, h, ih]

theorem alookup_eq_none_of_not_mem {κ β : Type} [DecidableEq κ] {k : κ} {l : List (κ × β)}
    (h : k ∉ keys l) : alookup k l = none := by
  cases hh : alookup k l with
  | none => rfl
  | some v => exact absurd ((alookup_isSome_iff_mem k l).mp (by simp [hh])) h

theorem alist_ext {κ β : Type} [DecidableEq κ] :
    ∀ {l₁ l₂ : List (κ × β)}, keys l₁ = keys l₂ → (keys l₁).Nodup →
      (∀ k, alookup k l₁ = alookup k l₂) → l₁ = l₂
  | [], [], _, _, _ => rfl
  | [], (_, _) :: _, hk, _, _ => by simp at hk
  | (_, _) :: _, [], hk, _, _ => by simp at hk
  | (k₁, v₁) :: t₁, (k₂, v₂) :: t₂, hk, hn, hl => by
    simp only [keys_cons, List.cons.injEq] at hk
    obtain ⟨rfl, htk⟩ := hk
    have hv : v₁ = v₂ := by
      have := hl k₁
      simpa [alookup] using this
    simp only [keys_cons, List.nodup_cons] at hn
    have htl : ∀ k, alookup k t₁ = alookup k t₂ := by
      intro k
      by_cases h : k = k₁
      · subst h
        rw [alookup_eq_none_of_not_mem hn.1, alookup_eq_none_of_not_mem (htk ▸ hn.1)]
      · have := hl k
        simpa [alookup, h] using this
    rw [hv, alist_ext htk hn.2 htl]

theorem upsert_id_of_mem {κ β : Type} [DecidableEq κ] {k : κ} {f : Option β → β}
    (hf : ∀ v, f (some v) = v) {l : List (κ × β)} (h : k ∈ keys l) : upsert k f l = l := by
  induction l with
  | nil => simp at h
  | cons hd tl ih =>
    obtain ⟨k₀, v₀⟩ := hd
    by_cases h₁ : k = k₀
    · simp [upsert, h₁, hf]
    · simp only [keys_cons, List.mem_cons] at h
      rcases h with h | h
      · exact absurd h h₁
      · simp [upsert, h₁, ih h]

theorem upsert_upsert_same {κ β : Type} [DecidableEq κ] (k : κ) (f : Option β → β)
    (hf : ∀ o, f (some (f o)) = f o) (l : List (κ × β)) :
    upsert k f (upsert k f l) = upsert k f l := by
  induction l with
  | nil => simp [upsert, hf]
  | cons hd tl ih =>
    obtain ⟨k₀, v₀⟩ := hd
    by_cases h₁ : k = k₀
    · simp [upsert, h₁, hf]
    · simp [upsert, h₁, ih]

/-! ### Field-fold lemmas -/

theorem ow_idem {α : Type} (a b : Option α) : ow a (ow a b) = ow a b := by
  cases a <;> rfl

theorem ffold_append {α : Type} (l₁ l₂ : List (Option α)) (v : Option α) :
    ffold (l₁ ++ l₂) v = ffold l₂ (ffold l₁ v) := by
  simp [ffold, List.foldl_append]

theorem ffold_char {α : Type} (l : List (Option α)) (v : Option α) :
    ffold l v = ow (ffold l none) v := by
  induction l generalizing v with
  | nil => cases v <;> rfl
  | cons w rest ih =>
    show ffold rest (ow w v) = ow (ffold rest (ow w none)) v
    rw [ih (ow w v), ih (ow w none)]
    cases hr : ffold rest none <;> cases w <;> simp [ow]

theorem ffold_ffold {α : Type} (l : List (Option α)) (v : Option α) :
    ffold l (ffold l v) = ffold l v := by
  rw [ffold_char l (ffold l v), ffold_char l v, ow_idem]

theorem ffold_none_mem {α : Type} :
    ∀ (l : List (Option α)) (x : α), ffold l none = some x → some x ∈ l := by
  intro l
  induction l with
  | nil => intro x h; simp [ffold] at h
  | cons w rest ih =>
    intro x h
    have h' : ow (ffold rest none) (ow w none) = some x := by
      rw [← ffold_char rest (ow w none)]; exact h
    cases hr : ffold rest none with
    | some y =>
      rw [hr] at h'
      simp only [ow, Option.some.injEq] at h'
      subst h'
      exact List.mem_cons_of_mem w (ih y hr)
    | none =>
      rw [hr] at h'
      cases w with
      | none => simp [ow] at h'
      | some z =>
        simp only [ow, Option.some.injEq] at h'
        subst h'
        exact List.mem_cons_self _ _

theorem ffold_comm {α : Type} (l₁ l₂ : List (Option α)) (v : Option α)
    (h : ∀ x ∈ l₁, ∀ y ∈ l₂, OptCompat x y) :
    ffold (l₁ ++ l₂) v = ffold (l₂ ++ l₁) v := by
  rw [ffold_append, ffold_append, ffold_char l₂ (ffold l₁ v), ffold_char l₁ v,
    ffold_char l₁ (ffold l₂ v), ffold_char l₂ v]
  cases h₁ : ffold l₁ none with
  | none => simp [ow]
  | some a =>
    cases h₂ : ffold l₂ none with
    | none => simp [ow]
    | some b =>
      have ha := ffold_none_mem l₁ a h₁
      have hb := ffold_none_mem l₂ b h₂
      rcases h (some a) ha (some b) hb with hc | hc | hc <;> simp_all [ow]

theorem ffold_constrained {α : Type} (l : List (Option α)) (v : Option α) (x : Option α)
    (h : ∀ o ∈ l, o = none ∨ o = x) : ffold l v = v ∨ ffold l v = x := by
  rw [ffold_char]
  cases hl : ffold l none with
  | none => left; rfl
  | some a =>
    have := h (some a) (ffold_none_mem l a hl)
    rcases this with h' | h'
    · simp at h'
    · right; rw [← h']; rfl

/-! ### `NWfold` and `EWfold` lemmas -/

theorem NWfold_append (l₁ l₂ : List NodeAttrs) (v : Option NodeAttrs) :
    NWfold (l₁ ++ l₂) v = NWfold l₂ (NWfold l₁ v) := by
  simp [NWfold, List.foldl_append]

theorem EWfold_append (l₁ l₂ : List EdgeAttrs) (v : Option EdgeAttrs) :
    EWfold (l₁ ++ l₂) v = EWfold l₂ (EWfold l₁ v) := by
  simp [EWfold, List.foldl_append]

theorem EWfold_eq_ffold (l : List EdgeAttrs) (v : Option EdgeAttrs) :
    EWfold l v = ffold (l.map some) v := by
  simp [EWfold, ffold, List.foldl_map, ow]

theorem NWfold_some (l : List NodeAttrs) (a : NodeAttrs) :
    ∃ b, NWfold l (some a) = some b := by
  induction l generalizing a with
  | nil => exact ⟨a, rfl⟩
  | cons w rest ih =>
    exact ih (a.mergeWith w)

theorem NWfold_eq_none_iff (l : List NodeAttrs) (v : Option NodeAttrs) :
    NWfold l v = none ↔ l = [] ∧ v = none := by
  cases l with
  | nil =>
    cases v <;> simp [NWfold]
  | cons w rest =>
    show NWfold rest (some _) = none ↔ _
    obtain ⟨b, hb⟩ := NWfold_some rest ((v.getD NodeAttrs.empty).mergeWith w)
    simp [hb]

theorem getD_field {γ : Type} (v : Option NodeAttrs) (f : NodeAttrs → Option γ)
    (hempty : f NodeAttrs.empty = none) : f (v.getD NodeAttrs.empty) = v.bind f := by
  cases v <;> simp [hempty]

theorem NWfold_field {γ : Type} (f : NodeAttrs → Option γ)
    (hmerge : ∀ a b, f (a.mergeWith b) = ow (f b) (f a))
    (hempty : f NodeAttrs.empty = none)
    (l : List NodeAttrs) (v : Option NodeAttrs) :
    (NWfold l v).bind f = ffold (l.map f) (v.bind f) := by
  induction l generalizing v with
  | nil => rfl
  | cons w rest ih =>
    show (NWfold rest (some ((v.getD NodeAttrs.empty).mergeWith w))).bind f = _
    rw [ih]
    simp only [Option.some_bind, hmerge, getD_field v f hempty]
    rfl

theorem optNodeAttrs_ext (o₁ o₂ : Option NodeAttrs)
    (hnone : o₁ = none ↔ o₂ = none)
    (ht : o₁.bind (·.title) = o₂.bind (·.title))
    (hl : o₁.bind (·.label) = o₂.bind (·.label))
    (hc : o₁.bind (·.color) = o₂.bind (·.color))
    (hs : o₁.bind (·.size) = o₂.bind (·.size)) : o₁ = o₂ := by
  cases o₁ with
  | none => exact (hnone.mp rfl).symm
  | some a =>
    cases o₂ with
    | none => simp at hnone
    | some b =>
      obtain ⟨t₁, l₁, c₁, s₁⟩ := a
      obtain ⟨t₂, l₂, c₂, s₂⟩ := b
      simp_all

theorem NWfold_idem (l : List NodeAttrs) (v : Option NodeAttrs) :
    NWfold l (NWfold l v) = NWfold l v := by
  refine optNodeAttrs_ext _ _ ?_ ?_ ?_ ?_ ?_
  · constructor
    · intro h
      exact ((NWfold_eq_none_iff _ _).mp h).2
    · intro h
      obtain ⟨h₁, h₂⟩ := (NWfold_eq_none_iff _ _).mp h
      rw [NWfold_eq_none_iff]
      exact ⟨h₁, h⟩
  · rw [NWfold_field (fun a => a.title) (fun a b => rfl) rfl,
      NWfold_field (fun a => a.title) (fun a b => rfl) rfl]
    exact ffold_ffold _ _
  · rw [NWfold_field (fun a => a.label) (fun a b => rfl) rfl,
      NWfold_field (fun a => a.label) (fun a b => rfl) rfl]
    exact ffold_ffold _ _
  · rw [NWfold_field (fun a => a.color) (fun a b => rfl) rfl,
      NWfold_field (fun a => a.color) (fun a b => rfl) rfl]
    exact ffold_ffold _ _
  · rw [NWfold_field (fun a => a.size) (fun a b => rfl) rfl,
      NWfold_field (fun a => a.size) (fun a b => rfl) rfl]
    exact ffold_ffold _ _

theorem EWfold_idem (l : List EdgeAttrs) (v : Option EdgeAttrs) :
    EWfold l (EWfold l v) = EWfold l v := by
  rw [EWfold_eq_ffold, EWfold_eq_ffold]
  exact ffold_ffold _ _

theorem NWfold_field_comm {γ : Type} (f : NodeAttrs → Option γ)
    (hmerge : ∀ a b, f (a.mergeWith b) = ow (f b) (f a))
    (hempty : f NodeAttrs.empty = none)
    (l₁ l₂ : List NodeAttrs) (v : Option NodeAttrs)
    (hf : ∀ a ∈ l₁, ∀ b ∈ l₂, OptCompat (f a) (f b)) :
    (NWfold (l₁ ++ l₂) v).bind f = (NWfold (l₂ ++ l₁) v).bind f := by
  rw [NWfold_field f hmerge hempty, NWfold_field f hmerge hempty,
    List.map_append, List.map_append]
  refine ffold_comm _ _ _ ?_
  rintro x hx y hy
  simp only [List.mem_map] at hx hy
  obtain ⟨a, ha, rfl⟩ := hx
  obtain ⟨b, hb, rfl⟩ := hy
  exact hf a ha b hb

theorem NWfold_comm (l₁ l₂ : List NodeAttrs) (v : Option NodeAttrs)
    (h : ∀ a ∈ l₁, ∀ b ∈ l₂, a.Compat b) :
    NWfold (l₁ ++ l₂) v = NWfold (l₂ ++ l₁) v := by
  refine optNodeAttrs_ext _ _ ?_ ?_ ?_ ?_ ?_
  · simp only [NWfold_eq_none_iff, List.append_eq_nil]
    tauto
  · exact NWfold_field_comm (fun a => a.title) (fun a b => rfl) rfl l₁ l₂ v
      (fun a ha b hb => (h a ha b hb).1)
  · exact NWfold_field_comm (fun a => a.label) (fun a b => rfl) rfl l₁ l₂ v
      (fun a ha b hb => (h a ha b hb).2.1)
  · exact NWfold_field_comm (fun a => a.color) (fun a b => rfl) rfl l₁ l₂ v
      (fun a ha b hb => (h a ha b hb).2.2.1)
  · exact NWfold_field_comm (fun a => a.size) (fun a b => rfl) rfl l₁ l₂ v
      (fun a ha b hb => (h a ha b hb).2.2.2)

theorem EWfold_comm (l₁ l₂ : List EdgeAttrs) (v : Option EdgeAttrs)
    (h : ∀ a ∈ l₁, ∀ b ∈ l₂, a = b) :
    EWfold (l₁ ++ l₂) v = EWfold (l₂ ++ l₁) v := by
  rw [EWfold_eq_ffold, EWfold_eq_ffold]
  simp only [List.map_append]
  refine ffold_comm _ _ _ ?_
  rintro x hx y hy
  simp only [List.mem_map] at hx hy
  obtain ⟨a, ha, rfl⟩ := hx
  obtain ⟨b, hb, rfl⟩ := hy
  right; right; rw [h a ha b hb]

/-! ### Lookup characterisation of write application -/

theorem applyWrites_append (g : Graph) (l₁ l₂ : List Write) :
    g.applyWrites (l₁ ++ l₂) = (g.applyWrites l₁).applyWrites l₂ := by
  simp [Graph.applyWrites, List.foldl_append]

theorem base_url_applyWrite (g : Graph) (w : Write) :
    (g.applyWrite w).base_url = g.base_url := by
  cases w <;> rfl

theorem site_applyWrite (g : Graph) (w : Write) :
    (g.applyWrite w).site = g.site := by
  cases w <;> rfl

theorem base_url_applyWrites (g : Graph) (ws : List Write) :
    (g.applyWrites ws).base_url = g.base_url := by
  induction ws generalizing g with
  | nil => rfl
  | cons w ws ih => rw [show g.applyWrites (w :: ws) = (g.applyWrite w).applyWrites ws from rfl,
      ih, base_url_applyWrite]

theorem site_applyWrites (g : Graph) (ws : List Write) :
    (g.applyWrites ws).site = g.site := by
  induction ws generalizing g with
  | nil => rfl
  | cons w ws ih => rw [show g.applyWrites (w :: ws) = (g.applyWrite w).applyWrites ws from rfl,
      ih, site_applyWrite]

theorem nodeAttrs_mergeNode (g : Graph) (k' : String) (w : NodeAttrs) (k : String) :
    (g.mergeNode k' w).nodeAttrs k = NWfold (nodeWritesOf k (.node k' w)) (g.nodeAttrs k) := by
  by_cases h : k' = k
  · subst h
    simp [Graph.mergeNode, Graph.nodeAttrs, alookup_upsert, nodeWritesOf, NWfold]
  · have h' : ¬k = k' := fun hh => h hh.symm
    simp [Graph.mergeNode, Graph.nodeAttrs, alookup_upsert, nodeWritesOf, h, h', NWfold]

theorem nodeAttrs_applyWrite (g : Graph) (w : Write) (k : String) :
    (g.applyWrite w).nodeAttrs k = NWfold (nodeWritesOf k w) (g.nodeAttrs k) := by
  cases w with
  | node k' a => exact nodeAttrs_mergeNode g k' a k
  | edge s t a =>
    have h₁ : (g.mergeDirectedEdge s t a).nodeAttrs k =
        ((g.mergeNode s NodeAttrs.empty).mergeNode t NodeAttrs.empty).nodeAttrs k := rfl
    have h₂ : nodeWritesOf k (.edge s t a) =
        nodeWritesOf k (.node s NodeAttrs.empty) ++ nodeWritesOf k (.node t NodeAttrs.empty) := by
      simp [nodeWritesOf]
    show (g.mergeDirectedEdge s t a).nodeAttrs k = _
    rw [h₁, nodeAttrs_mergeNode, nodeAttrs_mergeNode, h₂, NWfold_append]

theorem edges_mergeNode (g : Graph) (k : String) (w : NodeAttrs) :
    (g.mergeNode k w).edges = g.edges := rfl

theorem edgeAttrs_applyWrite (g : Graph) (w : Write) (s t : String) :
    (g.applyWrite w).edgeAttrs s t = EWfold (edgeWritesOf (s, t) w) (g.edgeAttrs s t) := by
  cases w with
  | node k a => rfl
  | edge s' t' a =>
    by_cases h : (s', t') = (s, t)
    · have hs : s' = s := congrArg Prod.fst h
      have ht : t' = t := congrArg Prod.snd h
      subst hs; subst ht
      simp [Graph.applyWrite, Graph.mergeDirectedEdge, Graph.edgeAttrs, edges_mergeNode,
        alookup_upsert, edgeWritesOf, EWfold]
    · have h' : ¬(s, t) = (s', t') := fun hh => h hh.symm
      simp [Graph.applyWrite, Graph.mergeDirectedEdge, Graph.edgeAttrs, edges_mergeNode,
        alookup_upsert, edgeWritesOf, h, h', EWfold]

theorem nodeAttrs_applyWrites (g : Graph) (ws : List Write) (k : String) :
    (g.applyWrites ws).nodeAttrs k = NWfold (nodeWritesAt k ws) (g.nodeAttrs k) := by
  induction ws generalizing g with
  | nil => rfl
  | cons w ws ih =>
    have hsplit : nodeWritesAt k (w :: ws) = nodeWritesOf k w ++ nodeWritesAt k ws := by
      simp [nodeWritesAt]
    rw [show g.applyWrites (w :: ws) = (g.applyWrite w).applyWrites ws from rfl, ih,
      nodeAttrs_applyWrite, hsplit, NWfold_append]

theorem edgeAttrs_applyWrites (g : Graph) (ws : List Write) (s t : String) :
    (g.applyWrites ws).edgeAttrs s t = EWfold (edgeWritesAt (s, t) ws) (g.edgeAttrs s t) := by
  induction ws generalizing g with
  | nil => rfl
  | cons w ws ih =>
    have hsplit : edgeWritesAt (s, t) (w :: ws) =
        edgeWritesOf (s, t) w ++ edgeWritesAt (s, t) ws := by
      simp [edgeWritesAt]
    rw [show g.applyWrites (w :: ws) = (g.applyWrite w).applyWrites ws from rfl, ih,
      edgeAttrs_applyWrite, hsplit, EWfold_append]

/-! ### Key-set and duplicate-freedom lemmas -/

theorem nodeKeys_applyWrite_covered (g : Graph) (w : Write)
    (h : ∀ x ∈ w.nodeKeysOf, x ∈ keys g.nodes) :
    keys (g.applyWrite w).nodes = keys g.nodes := by
  cases w with
  | node k a =>
    exact keys_upsert_of_mem _ (h k (by simp [Write.nodeKeysOf]))
  | edge s t a =>
    have hs : s ∈ keys g.nodes := h s (by simp [Write.nodeKeysOf])
    have ht : t ∈ keys g.nodes := h t (by simp [Write.nodeKeysOf])
    show keys (upsert t _ (upsert s _ g.nodes)) = keys g.nodes
    rw [keys_upsert_of_mem _ (keys_upsert_superset _ ht), keys_upsert_of_mem _ hs]

theorem nodeKeys_applyWrite_superset (g : Graph) (w : Write) {x : String}
    (h : x ∈ keys g.nodes) : x ∈ keys (g.applyWrite w).nodes := by
  cases w with
  | node k a => exact keys_upsert_superset _ h
  | edge s t a =>
    exact keys_upsert_superset _ (keys_upsert_superset _ h)

theorem nodeKeysOf_mem_applyWrite (g : Graph) (w : Write) {x : String}
    (h : x ∈ w.nodeKeysOf) : x ∈ keys (g.applyWrite w).nodes := by
  cases w with
  | node k a =>
    simp only [Write.nodeKeysOf, List.mem_singleton] at h
    subst h
    exact mem_keys_upsert _ _ _
  | edge s t a =>
    simp only [Write.nodeKeysOf, List.mem_cons, List.mem_singleton] at h
    rcases h with rfl | rfl | hfalse
    · exact keys_upsert_superset _ (mem_keys_upsert _ _ _)
    · exact mem_keys_upsert _ _ _
    · simp at hfalse

theorem nodeKeys_applyWrites_superset (g : Graph) (ws : List Write) {x : String}
    (h : x ∈ keys g.nodes) : x ∈ keys (g.applyWrites ws).nodes := by
  induction ws generalizing g with
  | nil => exact h
  | cons w ws ih =>
    exact ih (g.applyWrite w) (nodeKeys_applyWrite_superset g w h)

theorem nodeTouched_mem_applyWrites (g : Graph) (ws : List Write) {x : String}
    (h : x ∈ nodeTouched ws) : x ∈ keys (g.applyWrites ws).nodes := by
  induction ws generalizing g with
  | nil => simp [nodeTouched] at h
  | cons w ws ih =>
    simp only [nodeTouched, List.flatMap_cons, List.mem_append] at h
    rcases h with h | h
    · exact nodeKeys_applyWrites_superset _ ws (nodeKeysOf_mem_applyWrite g w h)
    · exact ih (g.applyWrite w) h

theorem nodeKeys_applyWrites_covered (g : Graph) (ws : List Write)
    (h : ∀ x ∈ nodeTouched ws, x ∈ keys g.nodes) :
    keys (g.applyWrites ws).nodes = keys g.nodes := by
  induction ws generalizing g with
  | nil => rfl
  | cons w ws ih =>
    have hw : ∀ x ∈ w.nodeKeysOf, x ∈ keys g.nodes := by
      intro x hx
      exact h x (by simp [nodeTouched, hx])
    have hstep := nodeKeys_applyWrite_covered g w hw
    rw [show g.applyWrites (w :: ws) = (g.applyWrite w).applyWrites ws from rfl,
      ih (g.applyWrite w) (fun x hx => hstep ▸ h x
        (by simp only [nodeTouched, List.flatMap_cons, List.mem_append]; exact Or.inr hx)),
      hstep]

theorem nodup_nodeKeys_applyWrite (g : Graph) (w : Write)
    (h : (keys g.nodes).Nodup) : (keys (g.applyWrite w).nodes).Nodup := by
  cases w with
  | node k a => exact nodup_keys_upsert _ _ h
  | edge s t a => exact nodup_keys_upsert _ _ (nodup_keys_upsert _ _ h)

theorem nodup_nodeKeys_applyWrites (g : Graph) (ws : List Write)
    (h : (keys g.nodes).Nodup) : (keys (g.applyWrites ws).nodes).Nodup := by
  induction ws generalizing g with
  | nil => exact h
  | cons w ws ih => exact ih (g.applyWrite w) (nodup_nodeKeys_applyWrite g w h)

theorem edgeKeys_applyWrite_covered (g : Graph) (w : Write)
    (h : ∀ x ∈ w.edgeKeysOf, x ∈ keys g.edges) :
    keys (g.applyWrite w).edges = keys g.edges := by
  cases w with
  | node k a => rfl
  | edge s t a =>
    exact keys_upsert_of_mem _ (h (s, t) (by simp [Write.edgeKeysOf]))

theorem edgeKeys_applyWrite_superset (g : Graph) (w : Write) {x : String × String}
    (h : x ∈ keys g.edges) : x ∈ keys (g.applyWrite w).edges := by
  cases w with
  | node k a => exact h
  | edge s t a => exact keys_upsert_superset _ h

theorem edgeKeysOf_mem_applyWrite (g : Graph) (w : Write) {x : String × String}
    (h : x ∈ w.edgeKeysOf) : x ∈ keys (g.applyWrite w).edges := by
  cases w with
  | node k a => simp [Write.edgeKeysOf] at h
  | edge s t a =>
    simp only [Write.edgeKeysOf, List.mem_singleton] at h
    subst h
    exact mem_keys_upsert _ _ _

theorem edgeKeys_applyWrites_superset (g : Graph) (ws : List Write) {x : String × String}
    (h : x ∈ keys g.edges) : x ∈ keys (g.applyWrites ws).edges := by
  induction ws generalizing g with
  | nil => exact h
  | cons w ws ih => exact ih (g.applyWrite w) (edgeKeys_applyWrite_superset g w h)

theorem edgeTouched_mem_applyWrites (g : Graph) (ws : List Write) {x : String × String}
    (h : x ∈ edgeTouched ws) : x ∈ keys (g.applyWrites ws).edges := by
  induction ws generalizing g with
  | nil => simp [edgeTouched] at h
  | cons w ws ih =>
    simp only [edgeTouched, List.flatMap_cons, List.mem_append] at h
    rcases h with h | h
    · exact edgeKeys_applyWrites_superset _ ws (edgeKeysOf_mem_applyWrite g w h)
    · exact ih (g.applyWrite w) h

theorem edgeKeys_applyWrites_covered (g : Graph) (ws : List Write)
    (h : ∀ x ∈ edgeTouched ws, x ∈ keys g.edges) :
    keys (g.applyWrites ws).edges = keys g.edges := by
  induction ws generalizing g with
  | nil => rfl
  | cons w ws ih =>
    have hw : ∀ x ∈ w.edgeKeysOf, x ∈ keys g.edges := by
      intro x hx
      exact h x (by simp [edgeTouched, hx])
    have hstep := edgeKeys_applyWrite_covered g w hw
    rw [show g.applyWrites (w :: ws) = (g.applyWrite w).applyWrites ws from rfl,
      ih (g.applyWrite w) (fun x hx => hstep ▸ h x
        (by simp only [edgeTouched, List.flatMap_cons, List.mem_append]; exact Or.inr hx)),
      hstep]

theorem nodup_edgeKeys_applyWrite (g : Graph) (w : Write)
    (h : (keys g.edges).Nodup) : (keys (g.applyWrite w).edges).Nodup := by
  cases w with
  | node k a => exact h
  | edge s t a => exact nodup_keys_upsert _ _ h

theorem nodup_edgeKeys_applyWrites (g : Graph) (ws : List Write)
    (h : (keys g.edges).Nodup) : (keys (g.applyWrites ws).edges).Nodup := by
  induction ws generalizing g with
  | nil => exact h
  | cons w ws ih => exact ih (g.applyWrite w) (nodup_edgeKeys_applyWrite g w h)

/-! ### Replaying a write list changes nothing -/

theorem graph_eq_of_parts (g₁ g₂ : Graph) (h₁ : g₁.base_url = g₂.base_url)
    (h₂ : g₁.site = g₂.site) (h₃ : g₁.nodes = g₂.nodes) (h₄ : g₁.edges = g₂.edges) :
    g₁ = g₂ := by
  cases g₁; cases g₂; simp_all

theorem applyWrites_replay (g : Graph) (ws : List Write)
    (hn : (keys g.nodes).Nodup) (he : (keys g.edges).Nodup) :
    (g.applyWrites ws).applyWrites ws = g.applyWrites ws := by
  have hncov : ∀ x ∈ nodeTouched ws, x ∈ keys (g.applyWrites ws).nodes :=
    fun x hx => nodeTouched_mem_applyWrites g ws hx
  have hecov : ∀ x ∈ edgeTouched ws, x ∈ keys (g.applyWrites ws).edges :=
    fun x hx => edgeTouched_mem_applyWrites g ws hx
  refine graph_eq_of_parts _ _ (base_url_applyWrites _ ws) (site_applyWrites _ ws) ?_ ?_
  · refine alist_ext (nodeKeys_applyWrites_covered _ ws hncov)
      (nodup_nodeKeys_applyWrites _ ws (nodup_nodeKeys_applyWrites g ws hn)) ?_
    intro k
    show ((g.applyWrites ws).applyWrites ws).nodeAttrs k = (g.applyWrites ws).nodeAttrs k
    rw [nodeAttrs_applyWrites, nodeAttrs_applyWrites g ws k, NWfold_idem]
  · refine alist_ext (edgeKeys_applyWrites_covered _ ws hecov)
      (nodup_edgeKeys_applyWrites _ ws (nodup_edgeKeys_applyWrites g ws he)) ?_
    intro p
    show alookup p ((g.applyWrites ws).applyWrites ws).edges = _
    have := edgeAttrs_applyWrites (g.applyWrites ws) ws p.1 p.2
    have h2 := edgeAttrs_applyWrites g ws p.1 p.2
    simp only [Graph.edgeAttrs] at this h2
    rw [this, h2, EWfold_idem]

/-! ### Factorisation of the engine functions into write lists -/

section Factorisation

variable (resolve : String → String → Option String)

theorem declWrites_cons_none (declW : String → NodeAttrs) (base : String)
    (n : GraphGardenNode) (rest : List GraphGardenNode) (h : resolve n.url base = none) :
    declWrites resolve declW base (n :: rest) = ([], false) := by
  simp [declWrites, h]

theorem declWrites_cons_some (declW : String → NodeAttrs) (base : String)
    (n : GraphGardenNode) (rest : List GraphGardenNode) (u : String)
    (h : resolve n.url base = some u) :
    declWrites resolve declW base (n :: rest) =
      (.node u (declW n.title) :: (declWrites resolve declW base rest).1,
        (declWrites resolve declW base rest).2) := by
  simp [declWrites, h]

theorem edgeLoopWrites_cons (config : GraphGardenConfig) (eAttrs : EdgeType → EdgeAttrs)
    (base : String) (e : GraphGardenEdge) (rest : List GraphGardenEdge) (s t : String)
    (hs : resolve e.source base = some s) (ht : resolve e.target base = some t) :
    edgeLoopWrites resolve config eAttrs base (e :: rest) =
      (.node s (sourceWrite config) :: .node t (targetWrite config e.type) ::
        .edge s t (eAttrs e.type) :: (edgeLoopWrites resolve config eAttrs base rest).1,
        (edgeLoopWrites resolve config eAttrs base rest).2) := by
  simp [edgeLoopWrites, hs, ht]

theorem mergeFriendNodes_eq (config : GraphGardenConfig) (base : String) :
    ∀ (ns : List GraphGardenNode) (g : Graph),
      mergeFriendNodes resolve config base g ns =
        if (declWrites resolve (friendNodeWrite config) base ns).2
        then Except.ok (g.applyWrites (declWrites resolve (friendNodeWrite config) base ns).1)
        else Except.error (g.applyWrites (declWrites resolve (friendNodeWrite config) base ns).1)
  := by
  intro ns
  induction ns with
  | nil => intro g; rfl
  | cons n rest ih =>
    intro g
    cases hr : resolve n.url base with
    | none =>
      rw [declWrites_cons_none resolve _ _ _ _ hr]
      simp [mergeFriendNodes, hr, Graph.applyWrites]
    | some u =>
      rw [declWrites_cons_some resolve _ _ _ _ _ hr]
      have hstep : mergeFriendNodes resolve config base g (n :: rest) =
          mergeFriendNodes resolve config base
            (g.mergeNode u (friendNodeWrite config n.title)) rest := by
        simp [mergeFriendNodes, hr]
      rw [hstep, ih]
      cases (declWrites resolve (friendNodeWrite config) base rest).2 <;> rfl

theorem mergeFriendEdges_eq (config : GraphGardenConfig) (base : String) :
    ∀ (es : List GraphGardenEdge) (g : Graph),
      mergeFriendEdges resolve config base g es =
        if (edgeLoopWrites resolve config (friendEdgeAttrs config) base es).2
        then Except.ok
          (g.applyWrites (edgeLoopWrites resolve config (friendEdgeAttrs config) base es).1)
        else Except.error
          (g.applyWrites (edgeLoopWrites resolve config (friendEdgeAttrs config) base es).1)
  := by
  intro es
  induction es with
  | nil => intro g; rfl
  | cons e rest ih =>
    intro g
    cases hs : resolve e.source base with
    | none =>
      simp [mergeFriendEdges, edgeLoopWrites, hs, Graph.applyWrites]
    | some s =>
      cases ht : resolve e.target base with
      | none =>
        simp [mergeFriendEdges, edgeLoopWrites, hs, ht, Graph.applyWrites]
      | some t =>
        rw [edgeLoopWrites_cons resolve _ _ _ _ _ _ _ hs ht]
        have hstep : mergeFriendEdges resolve config base g (e :: rest) =
            mergeFriendEdges resolve config base
              (((g.mergeNode s (sourceWrite config)).mergeNode t
                (targetWrite config e.type)).mergeDirectedEdge s t
                  (friendEdgeAttrs config e.type)) rest := by
          simp [mergeFriendEdges, hs, ht]
        rw [hstep, ih]
        cases (edgeLoopWrites resolve config (friendEdgeAttrs config) base rest).2 <;> rfl

theorem mergeFriendFile_eq (config : GraphGardenConfig) (file : GraphGardenFile) (g : Graph) :
    mergeFriendFile resolve config file g = g.applyWrites (fileWrites resolve config file) := by
  unfold mergeFriendFile fileWrites
  rw [mergeFriendNodes_eq]
  cases hn : (declWrites resolve (friendNodeWrite config) file.base_url file.nodes).2 with
  | false => simp [hn]
  | true =>
    simp only [hn, if_true]
    rw [mergeFriendEdges_eq]
    cases he :
        (edgeLoopWrites resolve config (friendEdgeAttrs config) file.base_url file.edges).2 <;>
      simp [hn, he, applyWrites_append]

theorem buildNodes_eq (config : GraphGardenConfig) (base : String) :
    ∀ (ns : List GraphGardenNode) (g : Graph),
      buildNodes resolve config base g ns =
        if (declWrites resolve (localNodeWrite config) base ns).2
        then Except.ok (g.applyWrites (declWrites resolve (localNodeWrite config) base ns).1)
        else Except.error ()
  := by
  intro ns
  induction ns with
  | nil => intro g; rfl
  | cons n rest ih =>
    intro g
    cases hr : resolve n.url base with
    | none =>
      rw [declWrites_cons_none resolve _ _ _ _ hr]
      simp [buildNodes, hr]
    | some u =>
      rw [declWrites_cons_some resolve _ _ _ _ _ hr]
      have hstep : buildNodes resolve config base g (n :: rest) =
          buildNodes resolve config base
            (g.mergeNode u (localNodeWrite config n.title)) rest := by
        simp [buildNodes, hr]
      rw [hstep, ih]
      cases (declWrites resolve (localNodeWrite config) base rest).2 <;> rfl

theorem buildEdges_eq (config : GraphGardenConfig) (base : String) :
    ∀ (es : List GraphGardenEdge) (g : Graph),
      buildEdges resolve config base g es =
        if (edgeLoopWrites resolve config (localEdgeAttrs config) base es).2
        then Except.ok
          (g.applyWrites (edgeLoopWrites resolve config (localEdgeAttrs config) base es).1)
        else Except.error ()
  := by
  intro es
  induction es with
  | nil => intro g; rfl
  | cons e rest ih =>
    intro g
    cases hs : resolve e.source base with
    | none =>
      simp [buildEdges, edgeLoopWrites, hs]
    | some s =>
      cases ht : resolve e.target base with
      | none =>
        simp [buildEdges, edgeLoopWrites, hs, ht]
      | some t =>
        rw [edgeLoopWrites_cons resolve _ _ _ _ _ _ _ hs ht]
        have hstep : buildEdges resolve config base g (e :: rest) =
            buildEdges resolve config base
              (((g.mergeNode s (sourceWrite config)).mergeNode t
                (targetWrite config e.type)).mergeDirectedEdge s t
                  (localEdgeAttrs config e.type)) rest := by
          simp [buildEdges, hs, ht]
        rw [hstep, ih]
        cases (edgeLoopWrites resolve config (localEdgeAttrs config) base rest).2 <;> rfl

theorem applySelfFile_eq (config : GraphGardenConfig) (file : GraphGardenFile) (g : Graph) :
    applySelfFile resolve config file g =
      if (selfWrites resolve config file).2
      then Except.ok (g.applyWrites (selfWrites resolve config file).1)
      else Except.error () := by
  unfold applySelfFile selfWrites
  rw [buildNodes_eq]
  cases hn : (declWrites resolve (localNodeWrite config) file.base_url file.nodes).2 with
  | false => simp [hn]
  | true =>
    simp only [hn, if_true]
    rw [buildEdges_eq]
    cases he :
        (edgeLoopWrites resolve config (localEdgeAttrs config) file.base_url file.edges).2 <;>
      simp [hn, he, applyWrites_append]

theorem mergeResult_eq (config : GraphGardenConfig) (g : Graph)
    (r : Option GraphGardenFile) :
    mergeResult resolve config g r = g.applyWrites (resultWrites resolve config r) := by
  cases r with
  | none => rfl
  | some f => exact mergeFriendFile_eq resolve config f g

theorem mergeResults_eq (config : GraphGardenConfig) :
    ∀ (rs : List (Option GraphGardenFile)) (g : Graph),
      mergeResults resolve config g rs =
        g.applyWrites (rs.flatMap (resultWrites resolve config))
  := by
  intro rs
  induction rs with
  | nil => intro g; rfl
  | cons r rest ih =>
    intro g
    show mergeResults resolve config (mergeResult resolve config g r) rest = _
    rw [ih, mergeResult_eq, List.flatMap_cons, applyWrites_append]

end Factorisation

/-! ### Content equality and commuting merges -/

theorem contentEq_refl (g : Graph) : g.ContentEq g :=
  ⟨rfl, rfl, fun _ => rfl, fun _ _ => rfl⟩

theorem contentEq_symm {g₁ g₂ : Graph} (h : g₁.ContentEq g₂) : g₂.ContentEq g₁ :=
  ⟨h.1.symm, h.2.1.symm, fun k => (h.2.2.1 k).symm, fun s t => (h.2.2.2 s t).symm⟩

theorem contentEq_trans {g₁ g₂ g₃ : Graph} (h₁ : g₁.ContentEq g₂) (h₂ : g₂.ContentEq g₃) :
    g₁.ContentEq g₃ :=
  ⟨h₁.1.trans h₂.1, h₁.2.1.trans h₂.2.1, fun k => (h₁.2.2.1 k).trans (h₂.2.2.1 k),
    fun s t => (h₁.2.2.2 s t).trans (h₂.2.2.2 s t)⟩

theorem contentEq_applyWrite {g₁ g₂ : Graph} (h : g₁.ContentEq g₂) (w : Write) :
    (g₁.applyWrite w).ContentEq (g₂.applyWrite w) := by
  refine ⟨?_, ?_, ?_, ?_⟩
  · rw [base_url_applyWrite, base_url_applyWrite]; exact h.1
  · rw [site_applyWrite, site_applyWrite]; exact h.2.1
  · intro k
    rw [nodeAttrs_applyWrite, nodeAttrs_applyWrite, h.2.2.1 k]
  · intro s t
    rw [edgeAttrs_applyWrite, edgeAttrs_applyWrite, h.2.2.2 s t]

theorem contentEq_applyWrites {g₁ g₂ : Graph} (h : g₁.ContentEq g₂) (ws : List Write) :
    (g₁.applyWrites ws).ContentEq (g₂.applyWrites ws) := by
  induction ws generalizing g₁ g₂ with
  | nil => exact h
  | cons w ws ih => exact ih (contentEq_applyWrite h w)

theorem compat_empty_left (a : NodeAttrs) : NodeAttrs.Compat NodeAttrs.empty a :=
  ⟨Or.inl rfl, Or.inl rfl, Or.inl rfl, Or.inl rfl⟩

theorem compat_empty_right (a : NodeAttrs) : a.Compat NodeAttrs.empty :=
  ⟨Or.inr (Or.inl rfl), Or.inr (Or.inl rfl), Or.inr (Or.inl rfl), Or.inr (Or.inl rfl)⟩

theorem mem_nodeWritesOf_edge {k s t : String} {e : EdgeAttrs} {a : NodeAttrs}
    (h : a ∈ nodeWritesOf k (.edge s t e)) : a = NodeAttrs.empty := by
  simp only [nodeWritesOf, List.mem_append] at h
  rcases h with h | h <;> (split at h <;> simp_all)

theorem nodeWritesOf_compat {w₁ w₂ : Write} (hc : w₁.Compat w₂) (k : String)
    {a b : NodeAttrs} (ha : a ∈ nodeWritesOf k w₁) (hb : b ∈ nodeWritesOf k w₂) :
    a.Compat b := by
  cases w₁ with
  | node k₁ a₁ =>
    cases w₂ with
    | node k₂ a₂ =>
      simp only [nodeWritesOf] at ha hb
      by_cases h₁ : k₁ = k
      · by_cases h₂ : k₂ = k
        · simp only [h₁, h₂, if_true, List.mem_singleton] at ha hb
          subst ha; subst hb
          exact hc (h₁.trans h₂.symm)
        · simp [h₂] at hb
      · simp [h₁] at ha
    | edge s t e =>
      rw [mem_nodeWritesOf_edge hb]
      exact compat_empty_right a
  | edge s t e =>
    rw [mem_nodeWritesOf_edge ha]
    exact compat_empty_left b

theorem edgeWritesOf_compat {w₁ w₂ : Write} (hc : w₁.Compat w₂) (p : String × String)
    {a b : EdgeAttrs} (ha : a ∈ edgeWritesOf p w₁) (hb : b ∈ edgeWritesOf p w₂) :
    a = b := by
  cases w₁ with
  | node k₁ a₁ => simp [edgeWritesOf] at ha
  | edge s₁ t₁ e₁ =>
    cases w₂ with
    | node k₂ a₂ => simp [edgeWritesOf] at hb
    | edge s₂ t₂ e₂ =>
      simp only [edgeWritesOf] at ha hb
      by_cases h₁ : (s₁, t₁) = p
      · by_cases h₂ : (s₂, t₂) = p
        · simp only [h₁, h₂, if_true, List.mem_singleton] at ha hb
          subst ha; subst hb
          have hkey : (s₁, t₁) = (s₂, t₂) := h₁.trans h₂.symm
          exact hc (congrArg Prod.fst hkey) (congrArg Prod.snd hkey)
        · simp [h₂] at hb
      · simp [h₁] at ha

theorem applyWrites_comm (g : Graph) (ws₁ ws₂ : List Write)
    (h : ∀ w₁ ∈ ws₁, ∀ w₂ ∈ ws₂, w₁.Compat w₂) :
    (g.applyWrites (ws₁ ++ ws₂)).ContentEq (g.applyWrites (ws₂ ++ ws₁)) := by
  refine ⟨?_, ?_, ?_, ?_⟩
  · rw [base_url_applyWrites, base_url_applyWrites]
  · rw [site_applyWrites, site_applyWrites]
  · intro k
    rw [nodeAttrs_applyWrites, nodeAttrs_applyWrites]
    have hsplit₁ : nodeWritesAt k (ws₁ ++ ws₂) = nodeWritesAt k ws₁ ++ nodeWritesAt k ws₂ := by
      simp [nodeWritesAt]
    have hsplit₂ : nodeWritesAt k (ws₂ ++ ws₁) = nodeWritesAt k ws₂ ++ nodeWritesAt k ws₁ := by
      simp [nodeWritesAt]
    rw [hsplit₁, hsplit₂]
    refine NWfold_comm _ _ _ ?_
    intro a ha b hb
    simp only [nodeWritesAt, List.mem_flatMap] at ha hb
    obtain ⟨w₁, hw₁, ha⟩ := ha
    obtain ⟨w₂, hw₂, hb⟩ := hb
    exact nodeWritesOf_compat (h w₁ hw₁ w₂ hw₂) k ha hb
  · intro s t
    rw [edgeAttrs_applyWrites, edgeAttrs_applyWrites]
    have hsplit₁ : edgeWritesAt (s, t) (ws₁ ++ ws₂) =
        edgeWritesAt (s, t) ws₁ ++ edgeWritesAt (s, t) ws₂ := by
      simp [edgeWritesAt]
    have hsplit₂ : edgeWritesAt (s, t) (ws₂ ++ ws₁) =
        edgeWritesAt (s, t) ws₂ ++ edgeWritesAt (s, t) ws₁ := by
      simp [edgeWritesAt]
    rw [hsplit₁, hsplit₂]
    refine EWfold_comm _ _ _ ?_
    intro a ha b hb
    simp only [edgeWritesAt, List.mem_flatMap] at ha hb
    obtain ⟨w₁, hw₁, ha⟩ := ha
    obtain ⟨w₂, hw₂, hb⟩ := hb
    exact edgeWritesOf_compat (h w₁ hw₁ w₂ hw₂) (s, t) ha hb

/-! ### Merging settled results in any order -/

theorem optCompat_symm {α : Type} {x y : Option α} (h : OptCompat x y) : OptCompat y x := by
  rcases h with h | h | h
  · exact Or.inr (Or.inl h)
  · exact Or.inl h
  · exact Or.inr (Or.inr h.symm)

theorem nodeAttrs_compat_symm {a b : NodeAttrs} (h : a.Compat b) : b.Compat a :=
  ⟨optCompat_symm h.1, optCompat_symm h.2.1, optCompat_symm h.2.2.1, optCompat_symm h.2.2.2⟩

theorem write_compat_symm {w₁ w₂ : Write} (h : w₁.Compat w₂) : w₂.Compat w₁ := by
  cases w₁ with
  | node k₁ a₁ =>
    cases w₂ with
    | node k₂ a₂ => exact fun hk => nodeAttrs_compat_symm (h hk.symm)
    | edge s t a => trivial
  | edge s₁ t₁ e₁ =>
    cases w₂ with
    | node k a => trivial
    | edge s₂ t₂ e₂ => exact fun hs ht => (h hs.symm ht.symm).symm

theorem resultCompat_symm (resolve : String → String → Option String)
    (config : GraphGardenConfig) :
    Symmetric (ResultCompat resolve config) := by
  intro r₁ r₂ h w₂ hw₂ w₁ hw₁
  exact write_compat_symm (h w₁ hw₁ w₂ hw₂)

theorem contentEq_mergeResults (resolve : String → String → Option String)
    (config : GraphGardenConfig) {g₁ g₂ : Graph} (h : g₁.ContentEq g₂)
    (rs : List (Option GraphGardenFile)) :
    (mergeResults resolve config g₁ rs).ContentEq (mergeResults resolve config g₂ rs) := by
  rw [mergeResults_eq, mergeResults_eq]
  exact contentEq_applyWrites h _

theorem mergeResults_perm (resolve : String → String → Option String)
    (config : GraphGardenConfig) {rs rs' : List (Option GraphGardenFile)}
    (hperm : rs.Perm rs') :
    rs.Pairwise (ResultCompat resolve config) → ∀ g : Graph,
      (mergeResults resolve config g rs).ContentEq (mergeResults resolve config g rs') := by
  induction hperm with
  | nil => exact fun _ g => contentEq_refl _
  | cons r hp ih =>
    intro hc g
    show (mergeResults resolve config (mergeResult resolve config g r) _).ContentEq
      (mergeResults resolve config (mergeResult resolve config g r) _)
    exact ih (List.Pairwise.of_cons hc) _
  | swap x y l =>
    intro hc g
    show (mergeResults resolve config
        (mergeResult resolve config (mergeResult resolve config g y) x) l).ContentEq
      (mergeResults resolve config
        (mergeResult resolve config (mergeResult resolve config g x) y) l)
    refine contentEq_mergeResults resolve config ?_ l
    have hyx : ResultCompat resolve config y x := by
      rcases hc with _ | ⟨h₁, _⟩
      exact h₁ x (List.mem_cons_self x l)
    rw [mergeResult_eq, mergeResult_eq, mergeResult_eq, mergeResult_eq,
      ← applyWrites_append, ← applyWrites_append]
    exact applyWrites_comm g _ _ hyx
  | trans h₁ h₂ ih₁ ih₂ =>
    intro hc g
    refine contentEq_trans (ih₁ hc g) (ih₂ ?_ g)
    exact (h₁.pairwise_iff (fun h => resultCompat_symm resolve config h)).mp hc

/-! ### Origin-deduplication lemmas -/

section Origins

variable (originOf : String → Option String)

theorem mem_foldl_originsStep (friends : List String) :
    ∀ (acc : List String) (o : String),
      o ∈ friends.foldl (originsStep originOf) acc ↔
        o ∈ acc ∨ ∃ f ∈ friends, originOf f = some o := by
  induction friends with
  | nil => intro acc o; simp
  | cons fr rest ih =>
    intro acc o
    show o ∈ rest.foldl (originsStep originOf) (originsStep originOf acc fr) ↔ _
    rw [ih]
    unfold originsStep
    cases hf : originOf fr with
    | none =>
      simp only [List.mem_cons]
      constructor
      · rintro (h | h)
        · exact Or.inl h
        · exact Or.inr (by obtain ⟨f, hmem, hor⟩ := h; exact ⟨f, Or.inr hmem, hor⟩)
      · rintro (h | ⟨f, hmem, hor⟩)
        · exact Or.inl h
        · rcases hmem with rfl | hmem
          · rw [hf] at hor; cases hor
          · exact Or.inr ⟨f, hmem, hor⟩
    | some og =>
      by_cases hmem : og ∈ acc
      · simp only [hmem, if_true, List.mem_cons]
        constructor
        · rintro (h | ⟨f, hm, hor⟩)
          · exact Or.inl h
          · exact Or.inr ⟨f, Or.inr hm, hor⟩
        · rintro (h | ⟨f, hm, hor⟩)
          · exact Or.inl h
          · rcases hm with rfl | hm
            · rw [hf] at hor
              cases hor
              exact Or.inl hmem
            · exact Or.inr ⟨f, hm, hor⟩
      · simp only [hmem, if_false, List.mem_append, List.mem_cons, List.not_mem_nil, or_false,
          List.mem_singleton]
        constructor
        · rintro ((h | h) | ⟨f, hm, hor⟩)
          · exact Or.inl h
          · exact Or.inr ⟨fr, Or.inl rfl, by rw [hf, h]⟩
          · exact Or.inr ⟨f, Or.inr hm, hor⟩
        · rintro (h | ⟨f, hm, hor⟩)
          · exact Or.inl (Or.inl h)
          · rcases hm with rfl | hm
            · rw [hf] at hor
              cases hor
              exact Or.inl (Or.inr rfl)
            · exact Or.inr ⟨f, hm, hor⟩

theorem mem_fetchOrigins (friends : List String) (o : String) :
    o ∈ fetchOrigins originOf friends ↔ ∃ f ∈ friends, originOf f = some o := by
  rw [fetchOrigins, mem_foldl_originsStep]
  simp

theorem nodup_foldl_originsStep (friends : List String) :
    ∀ acc : List String, acc.Nodup → (friends.foldl (originsStep originOf) acc).Nodup := by
  induction friends with
  | nil => exact fun acc h => h
  | cons fr rest ih =>
    intro acc h
    refine ih _ ?_
    unfold originsStep
    cases hf : originOf fr with
    | none => exact h
    | some og =>
      by_cases hmem : og ∈ acc
      · simp [hmem, h]
      · simp only [hmem, if_false]
        simpa [List.nodup_append] using ⟨h, hmem⟩

theorem nodup_fetchOrigins (friends : List String) :
    (fetchOrigins originOf friends).Nodup :=
  nodup_foldl_originsStep originOf friends [] List.nodup_nil

theorem foldl_originsStep_skip (bad : String) (h : originOf bad = none) :
    ∀ (pre post : List String) (acc : List String),
      (pre ++ bad :: post).foldl (originsStep originOf) acc =
        (pre ++ post).foldl (originsStep originOf) acc := by
  intro pre post acc
  rw [List.foldl_append, List.foldl_append]
  show List.foldl _ (originsStep originOf (pre.foldl _ acc) bad) post = _
  rw [show originsStep originOf (pre.foldl (originsStep originOf) acc) bad =
    pre.foldl (originsStep originOf) acc from by unfold originsStep; rw [h]]

theorem fetchOrigins_skip_invalid (bad : String) (h : originOf bad = none)
    (pre post : List String) :
    fetchOrigins originOf (pre ++ bad :: post) = fetchOrigins originOf (pre ++ post) :=
  foldl_originsStep_skip originOf bad h pre post []

end Origins

theorem string_append_right_cancel {a b c : String} (h : a ++ c = b ++ c) : a = b := by
  cases a with
  | mk da =>
    cases b with
    | mk db =>
      cases c with
      | mk dc =>
        have h2 : da ++ dc = db ++ dc := by injection h
        exact congrArg String.mk (List.append_cancel_right h2)

/-! ### Helper lemmas for the claims -/

theorem mergeResults_skip_none (resolve : String → String → Option String)
    (config : GraphGardenConfig) (g : Graph) (pre post : List (Option GraphGardenFile)) :
    mergeResults resolve config g (pre ++ none :: post) =
      mergeResults resolve config g (pre ++ post) := by
  unfold mergeResults
  rw [List.foldl_append, List.foldl_append]
  rfl

theorem countOcc_eq_zero {u : String} {l : List String} (h : u ∉ l) : countOcc u l = 0 := by
  induction l with
  | nil => rfl
  | cons a rest ih =>
    simp only [List.mem_cons, not_or] at h
    have hne : ¬a = u := fun hh => h.1 hh.symm
    simp [countOcc, hne, ih h.2]

theorem countOcc_eq_one {u : String} {l : List String} (hd : l.Nodup) (hm : u ∈ l) :
    countOcc u l = 1 := by
  induction l with
  | nil => simp at hm
  | cons a rest ih =>
    simp only [List.nodup_cons] at hd
    rcases List.mem_cons.mp hm with rfl | hm'
    · simp [countOcc, countOcc_eq_zero hd.1]
    · have hne : ¬a = u := fun hh => hd.1 (hh ▸ hm')
      simp [countOcc, hne, ih hd.2 hm']

theorem countOcc_map_append (o p : String) (l : List String) :
    countOcc (o ++ p) (l.map (fun x => x ++ p)) = countOcc o l := by
  induction l with
  | nil => rfl
  | cons a rest ih =>
    by_cases h : a = o
    · subst h
      simp [countOcc, ih]
    · have h₂ : ¬a ++ p = o ++ p := fun hh => h (string_append_right_cancel hh)
      simp [countOcc, h, h₂, ih]

theorem ffold_all_none {α : Type} {l : List (Option α)} (h : ∀ o ∈ l, o = none)
    (v : Option α) : ffold l v = v := by
  rw [ffold_char]
  cases hl : ffold l none with
  | none => rfl
  | some a => exact absurd (h (some a) (ffold_none_mem l a hl)) (by simp)

theorem mergeWith_self_idem (a w : NodeAttrs) : (a.mergeWith w).mergeWith w = a.mergeWith w := by
  cases a; cases w
  simp [NodeAttrs.mergeWith, ow_idem]

theorem mergeWith_empty (a : NodeAttrs) : a.mergeWith NodeAttrs.empty = a := by
  cases a
  simp [NodeAttrs.mergeWith, NodeAttrs.empty, ow]

theorem mergeNode_idem (g : Graph) (key : String) (w : NodeAttrs) :
    (g.mergeNode key w).mergeNode key w = g.mergeNode key w := by
  refine graph_eq_of_parts _ _ rfl rfl ?_ rfl
  exact upsert_upsert_same key _ (fun o => mergeWith_self_idem (o.getD NodeAttrs.empty) w)
    g.nodes

theorem mergeNode_empty_of_mem (g : Graph) (k : String) (h : k ∈ keys g.nodes) :
    g.mergeNode k NodeAttrs.empty = g := by
  refine graph_eq_of_parts _ _ rfl rfl ?_ rfl
  exact upsert_id_of_mem (fun v => mergeWith_empty v) h

theorem mergeDirectedEdge_idem (g : Graph) (s t : String) (a : EdgeAttrs) :
    (g.mergeDirectedEdge s t a).mergeDirectedEdge s t a = g.mergeDirectedEdge s t a := by
  have hs : s ∈ keys (g.mergeDirectedEdge s t a).nodes :=
    nodeKeysOf_mem_applyWrite g (.edge s t a) (by simp [Write.nodeKeysOf])
  have ht : t ∈ keys (g.mergeDirectedEdge s t a).nodes :=
    nodeKeysOf_mem_applyWrite g (.edge s t a) (by simp [Write.nodeKeysOf])
  refine graph_eq_of_parts _ _ rfl rfl ?_ ?_
  · show (((g.mergeDirectedEdge s t a).mergeNode s NodeAttrs.empty).mergeNode t
      NodeAttrs.empty).nodes = _
    rw [mergeNode_empty_of_mem _ s hs, mergeNode_empty_of_mem _ t ht]
  · show upsert (s, t) (fun _ => a) (upsert (s, t) (fun _ => a) g.edges) =
      upsert (s, t) (fun _ => a) g.edges
    exact upsert_upsert_same (s, t) (fun _ => a) (fun _ => rfl) g.edges

/-! ### Write-list membership and shape lemmas -/

section WriteListLemmas

variable (resolve : String → String → Option String)

theorem declWrites_complete (declW : String → NodeAttrs) (base : String) :
    ∀ ns : List GraphGardenNode, (∀ n ∈ ns, (resolve n.url base).isSome) →
      (declWrites resolve declW base ns).2 = true := by
  intro ns
  induction ns with
  | nil => intro _; rfl
  | cons n rest ih =>
    intro hall
    obtain ⟨u, hu⟩ := Option.isSome_iff_exists.mp (hall n (List.mem_cons_self n rest))
    rw [declWrites_cons_some resolve declW base n rest u hu]
    exact ih (fun n' hn' => hall n' (List.mem_cons_of_mem n hn'))

theorem declWrites_incomplete (declW : String → NodeAttrs) (base : String) :
    ∀ ns : List GraphGardenNode, (∃ n ∈ ns, resolve n.url base = none) →
      (declWrites resolve declW base ns).2 = false := by
  intro ns
  induction ns with
  | nil => rintro ⟨n, hn, _⟩; simp at hn
  | cons n rest ih =>
    rintro ⟨m, hm, hfail⟩
    cases hr : resolve n.url base with
    | none => rw [declWrites_cons_none resolve declW base n rest hr]
    | some u =>
      rw [declWrites_cons_some resolve declW base n rest u hr]
      rcases List.mem_cons.mp hm with rfl | hm'
      · rw [hr] at hfail; cases hfail
      · exact ih ⟨m, hm', hfail⟩

theorem declWrites_mem_of (declW : String → NodeAttrs) (base : String) :
    ∀ (ns : List GraphGardenNode) (n : GraphGardenNode) (u : String),
      (∀ n' ∈ ns, (resolve n'.url base).isSome) → n ∈ ns → resolve n.url base = some u →
      Write.node u (declW n.title) ∈ (declWrites resolve declW base ns).1 := by
  intro ns
  induction ns with
  | nil => intro n u _ hn; simp at hn
  | cons n₀ rest ih =>
    intro n u hall hn hu
    obtain ⟨u₀, hu₀⟩ := Option.isSome_iff_exists.mp (hall n₀ (List.mem_cons_self n₀ rest))
    rw [declWrites_cons_some resolve declW base n₀ rest u₀ hu₀]
    rcases List.mem_cons.mp hn with rfl | hn'
    · rw [hu] at hu₀
      cases hu₀
      exact List.mem_cons_self _ _
    · exact List.mem_cons_of_mem _
        (ih n u (fun n' hn'' => hall n' (List.mem_cons_of_mem n₀ hn'')) hn' hu)

theorem declWrites_append_bad (declW : String → NodeAttrs) (base : String) :
    ∀ (pre : List GraphGardenNode) (bad : GraphGardenNode) (rest : List GraphGardenNode),
      (∀ n ∈ pre, (resolve n.url base).isSome) → resolve bad.url base = none →
      declWrites resolve declW base (pre ++ bad :: rest) =
        ((declWrites resolve declW base pre).1, false) := by
  intro pre
  induction pre with
  | nil =>
    intro bad rest _ hbad
    rw [List.nil_append, declWrites_cons_none resolve declW base bad rest hbad]
    rfl
  | cons p pre' ih =>
    intro bad rest hall hbad
    obtain ⟨u, hu⟩ := Option.isSome_iff_exists.mp (hall p (List.mem_cons_self p pre'))
    rw [List.cons_append, declWrites_cons_some resolve declW base p _ u hu,
      declWrites_cons_some resolve declW base p pre' u hu,
      ih bad rest (fun n hn => hall n (List.mem_cons_of_mem p hn)) hbad]

theorem declWrites_mem_shape (declW : String → NodeAttrs) (base : String) :
    ∀ (ns : List GraphGardenNode) (w : Write), w ∈ (declWrites resolve declW base ns).1 →
      ∃ u ttl, w = Write.node u (declW ttl) := by
  intro ns
  induction ns with
  | nil => intro w hw; simp [declWrites] at hw
  | cons n rest ih =>
    intro w hw
    cases hr : resolve n.url base with
    | none =>
      rw [declWrites_cons_none resolve declW base n rest hr] at hw
      simp at hw
    | some u =>
      rw [declWrites_cons_some resolve declW base n rest u hr] at hw
      rcases List.mem_cons.mp hw with rfl | hw'
      · exact ⟨u, n.title, rfl⟩
      · exact ih w hw'

theorem edgeLoopWrites_complete (config : GraphGardenConfig) (eAttrs : EdgeType → EdgeAttrs)
    (base : String) :
    ∀ es : List GraphGardenEdge,
      (∀ e ∈ es, (resolve e.source base).isSome ∧ (resolve e.target base).isSome) →
      (edgeLoopWrites resolve config eAttrs base es).2 = true := by
  intro es
  induction es with
  | nil => intro _; rfl
  | cons e rest ih =>
    intro hall
    obtain ⟨hs, ht⟩ := hall e (List.mem_cons_self e rest)
    obtain ⟨s, hs⟩ := Option.isSome_iff_exists.mp hs
    obtain ⟨t, ht⟩ := Option.isSome_iff_exists.mp ht
    rw [edgeLoopWrites_cons resolve config eAttrs base e rest s t hs ht]
    exact ih (fun e' he' => hall e' (List.mem_cons_of_mem e he'))

theorem edgeLoopWrites_mem_of (config : GraphGardenConfig) (eAttrs : EdgeType → EdgeAttrs)
    (base : String) :
    ∀ (es : List GraphGardenEdge) (e : GraphGardenEdge) (s t : String),
      (∀ e' ∈ es, (resolve e'.source base).isSome ∧ (resolve e'.target base).isSome) →
      e ∈ es → resolve e.source base = some s → resolve e.target base = some t →
      Write.edge s t (eAttrs e.type) ∈ (edgeLoopWrites resolve config eAttrs base es).1 := by
  intro es
  induction es with
  | nil => intro e s t _ he; simp at he
  | cons e₀ rest ih =>
    intro e s t hall he hs ht
    obtain ⟨hs₀, ht₀⟩ := hall e₀ (List.mem_cons_self e₀ rest)
    obtain ⟨s₀, hs₀⟩ := Option.isSome_iff_exists.mp hs₀
    obtain ⟨t₀, ht₀⟩ := Option.isSome_iff_exists.mp ht₀
    rw [edgeLoopWrites_cons resolve config eAttrs base e₀ rest s₀ t₀ hs₀ ht₀]
    rcases List.mem_cons.mp he with rfl | he'
    · rw [hs] at hs₀
      rw [ht] at ht₀
      cases hs₀
      cases ht₀
      exact List.mem_cons_of_mem _ (List.mem_cons_of_mem _ (List.mem_cons_self _ _))
    · exact List.mem_cons_of_mem _ (List.mem_cons_of_mem _ (List.mem_cons_of_mem _
        (ih e s t (fun e' he'' => hall e' (List.mem_cons_of_mem e₀ he'')) he' hs ht)))

theorem edgeLoopWrites_mem_shape (config : GraphGardenConfig) (eAttrs : EdgeType → EdgeAttrs)
    (base : String) :
    ∀ (es : List GraphGardenEdge) (w : Write),
      w ∈ (edgeLoopWrites resolve config eAttrs base es).1 →
      (∃ s, w = .node s (sourceWrite config)) ∨ (∃ t ty, w = .node t (targetWrite config ty)) ∨
        (∃ s t ty, w = .edge s t (eAttrs ty)) := by
  intro es
  induction es with
  | nil => intro w hw; simp [edgeLoopWrites] at hw
  | cons e rest ih =>
    intro w hw
    cases hs : resolve e.source base with
    | none => simp [edgeLoopWrites, hs] at hw
    | some s =>
      cases ht : resolve e.target base with
      | none => simp [edgeLoopWrites, hs, ht] at hw
      | some t =>
        rw [edgeLoopWrites_cons resolve config eAttrs base e rest s t hs ht] at hw
        rcases List.mem_cons.mp hw with rfl | hw'
        · exact Or.inl ⟨s, rfl⟩
        rcases List.mem_cons.mp hw' with rfl | hw''
        · exact Or.inr (Or.inl ⟨t, e.type, rfl⟩)
        rcases List.mem_cons.mp hw'' with rfl | hw₃
        · exact Or.inr (Or.inr ⟨s, t, e.type, rfl⟩)
        · exact ih w hw₃

end WriteListLemmas

/-! ### Per-key write lists of a merged friend file -/

section PerKey

variable (resolve : String → String → Option String)

theorem nodeWritesAt_append (k : String) (l₁ l₂ : List Write) :
    nodeWritesAt k (l₁ ++ l₂) = nodeWritesAt k l₁ ++ nodeWritesAt k l₂ := by
  simp [nodeWritesAt]

theorem edgeWritesAt_append (p : String × String) (l₁ l₂ : List Write) :
    edgeWritesAt p (l₁ ++ l₂) = edgeWritesAt p l₁ ++ edgeWritesAt p l₂ := by
  simp [edgeWritesAt]

theorem declWrites_at_none (declW : String → NodeAttrs) (base : String) :
    ∀ (ns : List GraphGardenNode) (u : String),
      (∀ n ∈ ns, resolve n.url base ≠ some u) →
      nodeWritesAt u (declWrites resolve declW base ns).1 = [] := by
  intro ns
  induction ns with
  | nil => intro u _; rfl
  | cons n rest ih =>
    intro u hnone
    cases hr : resolve n.url base with
    | none => rw [declWrites_cons_none resolve declW base n rest hr]; rfl
    | some u₀ =>
      rw [declWrites_cons_some resolve declW base n rest u₀ hr]
      have hne : ¬u₀ = u := fun hh =>
        hnone n (List.mem_cons_self n rest) (hh ▸ hr)
      show nodeWritesOf u (.node u₀ (declW n.title)) ++ _ = []
      rw [show nodeWritesOf u (.node u₀ (declW n.title)) = [] from by simp [nodeWritesOf, hne],
        List.nil_append]
      exact ih u (fun n' hn' => hnone n' (List.mem_cons_of_mem n hn'))

theorem nodeWritesAt_cons (k : String) (w : Write) (ws : List Write) :
    nodeWritesAt k (w :: ws) = nodeWritesOf k w ++ nodeWritesAt k ws := by
  simp [nodeWritesAt]

theorem edgeWritesAt_cons (p : String × String) (w : Write) (ws : List Write) :
    edgeWritesAt p (w :: ws) = edgeWritesOf p w ++ edgeWritesAt p ws := by
  simp [edgeWritesAt]

theorem declWrites_at_unique (declW : String → NodeAttrs) (base : String) :
    ∀ (ns : List GraphGardenNode) (n : GraphGardenNode) (u : String),
      ((ns.map (fun n' => resolve n'.url base)).Nodup) →
      (∀ n' ∈ ns, (resolve n'.url base).isSome) →
      n ∈ ns → resolve n.url base = some u →
      nodeWritesAt u (declWrites resolve declW base ns).1 = [declW n.title] := by
  intro ns
  induction ns with
  | nil => intro n u _ _ hn; simp at hn
  | cons n₀ rest ih =>
    intro n u hnodup hall hn hu
    obtain ⟨u₀, hu₀⟩ := Option.isSome_iff_exists.mp (hall n₀ (List.mem_cons_self n₀ rest))
    rw [declWrites_cons_some resolve declW base n₀ rest u₀ hu₀]
    simp only [List.map_cons, List.nodup_cons] at hnodup
    rcases List.mem_cons.mp hn with rfl | hn'
    · rw [hu] at hu₀
      cases hu₀
      rw [nodeWritesAt_cons,
        show nodeWritesOf u (Write.node u (declW n.title)) = [declW n.title] from by
          simp [nodeWritesOf],
        declWrites_at_none resolve declW base rest u ?_, List.append_nil]
      intro n' hn' hc
      refine hnodup.1 ?_
      rw [hu, ← hc]
      exact List.mem_map_of_mem _ hn'
    · have hne : ¬u₀ = u := by
        intro hh
        refine hnodup.1 ?_
        rw [hu₀, hh, ← hu]
        exact List.mem_map_of_mem _ hn'
      rw [nodeWritesAt_cons,
        show nodeWritesOf u (Write.node u₀ (declW n₀.title)) = [] from by
          simp [nodeWritesOf, hne],
        List.nil_append]
      exact ih n u hnodup.2 (fun n' hn'' => hall n' (List.mem_cons_of_mem n₀ hn'')) hn' hu

theorem edgeLoop_nodeWritesAt_shape (config : GraphGardenConfig)
    (eAttrs : EdgeType → EdgeAttrs) (base : String) (es : List GraphGardenEdge) (u : String) :
    ∀ a ∈ nodeWritesAt u (edgeLoopWrites resolve config eAttrs base es).1,
      a.title = none ∧ a.label = none ∧
        (a.color = none ∨ a.color = some config.friendNodeColor) := by
  intro a ha
  simp only [nodeWritesAt, List.mem_flatMap] at ha
  obtain ⟨w, hw, ha⟩ := ha
  rcases edgeLoopWrites_mem_shape resolve config eAttrs base es w hw with
    ⟨s, rfl⟩ | ⟨t, ty, rfl⟩ | ⟨s, t, ty, rfl⟩
  · simp only [nodeWritesOf] at ha
    split at ha <;> simp_all [sourceWrite]
  · simp only [nodeWritesOf] at ha
    split at ha <;> simp_all only [List.mem_singleton, List.not_mem_nil]
    subst ha
    refine ⟨rfl, rfl, ?_⟩
    cases ty <;> simp [targetWrite]
  · rw [mem_nodeWritesOf_edge ha]
    exact ⟨rfl, rfl, Or.inl rfl⟩

theorem declWrites_edgeAt (declW : String → NodeAttrs) (base : String)
    (ns : List GraphGardenNode) (p : String × String) :
    edgeWritesAt p (declWrites resolve declW base ns).1 = [] := by
  have hall : ∀ a ∈ edgeWritesAt p (declWrites resolve declW base ns).1, False := by
    intro a ha
    simp only [edgeWritesAt, List.mem_flatMap] at ha
    obtain ⟨w, hw, ha⟩ := ha
    obtain ⟨u, ttl, rfl⟩ := declWrites_mem_shape resolve declW base ns w hw
    simp [edgeWritesOf] at ha
  cases hh : edgeWritesAt p (declWrites resolve declW base ns).1 with
  | nil => rfl
  | cons a rest => exact absurd (hh ▸ List.mem_cons_self a rest) (fun hc => hall a hc)

theorem edgeLoopWrites_at_none (config : GraphGardenConfig) (eAttrs : EdgeType → EdgeAttrs)
    (base : String) :
    ∀ (es : List GraphGardenEdge) (p : String × String),
      (∀ e ∈ es, ¬(resolve e.source base = some p.1 ∧ resolve e.target base = some p.2)) →
      edgeWritesAt p (edgeLoopWrites resolve config eAttrs base es).1 = [] := by
  intro es
  induction es with
  | nil => intro p _; rfl
  | cons e rest ih =>
    intro p hnone
    cases hs : resolve e.source base with
    | none => simp [edgeLoopWrites, hs, edgeWritesAt]
    | some s =>
      cases ht : resolve e.target base with
      | none => simp [edgeLoopWrites, hs, ht, edgeWritesAt]
      | some t =>
        rw [edgeLoopWrites_cons resolve config eAttrs base e rest s t hs ht]
        have hne : ¬(s, t) = p := by
          intro hh
          refine hnone e (List.mem_cons_self e rest) ⟨?_, ?_⟩
          · rw [hs, ← hh]
          · rw [ht, ← hh]
        rw [edgeWritesAt_cons, edgeWritesAt_cons, edgeWritesAt_cons,
          show edgeWritesOf p (Write.node s (sourceWrite config)) = [] from rfl,
          show edgeWritesOf p (Write.node t (targetWrite config e.type)) = [] from rfl,
          show edgeWritesOf p (Write.edge s t (eAttrs e.type)) = [] from by
            simp [edgeWritesOf, hne],
          List.nil_append, List.nil_append, List.nil_append]
        exact ih p (fun e' he' => hnone e' (List.mem_cons_of_mem e he'))

theorem edgeLoopWrites_at_unique (config : GraphGardenConfig) (eAttrs : EdgeType → EdgeAttrs)
    (base : String) :
    ∀ (es : List GraphGardenEdge) (e : GraphGardenEdge) (s t : String),
      ((es.map (fun e' => (resolve e'.source base, resolve e'.target base))).Nodup) →
      (∀ e' ∈ es, (resolve e'.source base).isSome ∧ (resolve e'.target base).isSome) →
      e ∈ es → resolve e.source base = some s → resolve e.target base = some t →
      edgeWritesAt (s, t) (edgeLoopWrites resolve config eAttrs base es).1 =
        [eAttrs e.type] := by
  intro es
  induction es with
  | nil => intro e s t _ _ he; simp at he
  | cons e₀ rest ih =>
    intro e s t hnodup hall he hs ht
    obtain ⟨hs₀, ht₀⟩ := hall e₀ (List.mem_cons_self e₀ rest)
    obtain ⟨s₀, hs₀⟩ := Option.isSome_iff_exists.mp hs₀
    obtain ⟨t₀, ht₀⟩ := Option.isSome_iff_exists.mp ht₀
    rw [edgeLoopWrites_cons resolve config eAttrs base e₀ rest s₀ t₀ hs₀ ht₀]
    simp only [List.map_cons, List.nodup_cons] at hnodup
    rcases List.mem_cons.mp he with rfl | he'
    · rw [hs] at hs₀
      rw [ht] at ht₀
      cases hs₀
      cases ht₀
      rw [edgeWritesAt_cons, edgeWritesAt_cons, edgeWritesAt_cons,
        show edgeWritesOf (s, t) (Write.node s (sourceWrite config)) = [] from rfl,
        show edgeWritesOf (s, t) (Write.node t (targetWrite config e.type)) = [] from rfl,
        show edgeWritesOf (s, t) (Write.edge s t (eAttrs e.type)) = [eAttrs e.type] from by
          simp [edgeWritesOf],
        List.nil_append, List.nil_append,
        edgeLoopWrites_at_none resolve config eAttrs base rest (s, t) ?_, List.append_nil]
      intro e' he' hc
      obtain ⟨hcs, hct⟩ := hc
      refine hnodup.1 ?_
      rw [hs, ht, ← hcs, ← hct]
      exact List.mem_map_of_mem _ he'
    · have hne : ¬(s₀, t₀) = (s, t) := by
        intro hh
        have h₁ : s₀ = s := congrArg Prod.fst hh
        have h₂ : t₀ = t := congrArg Prod.snd hh
        refine hnodup.1 ?_
        rw [hs₀, ht₀, h₁, h₂, ← hs, ← ht]
        exact List.mem_map_of_mem _ he'
      rw [edgeWritesAt_cons, edgeWritesAt_cons, edgeWritesAt_cons,
        show edgeWritesOf (s, t) (Write.node s₀ (sourceWrite config)) = [] from rfl,
        show edgeWritesOf (s, t) (Write.node t₀ (targetWrite config e₀.type)) = [] from rfl,
        show edgeWritesOf (s, t) (Write.edge s₀ t₀ (eAttrs e₀.type)) = [] from by
          simp [edgeWritesOf, hne],
        List.nil_append, List.nil_append, List.nil_append]
      exact ih e s t hnodup.2 (fun e' he'' => hall e' (List.mem_cons_of_mem e₀ he'')) he' hs ht

end PerKey

/-! ### Colors written by friend merging -/

theorem fileWrites_node_color (resolve : String → String → Option String)
    (config : GraphGardenConfig) (f : GraphGardenFile) :
    ∀ w ∈ fileWrites resolve config f, ∀ k a, w = Write.node k a →
      a.color = none ∨ a.color = some config.friendNodeColor := by
  intro w hw k a hwa
  subst hwa
  have hdecl : ∀ w' ∈ (declWrites resolve (friendNodeWrite config) f.base_url f.nodes).1,
      ∀ k' a', w' = Write.node k' a' →
        a'.color = none ∨ a'.color = some config.friendNodeColor := by
    intro w' hw' k' a' hwa'
    obtain ⟨u, ttl, hshape⟩ :=
      declWrites_mem_shape resolve (friendNodeWrite config) f.base_url f.nodes w' hw'
    rw [hwa'] at hshape
    have : a' = friendNodeWrite config ttl := by
      injection hshape with h₁ h₂
    rw [this]
    exact Or.inr rfl
  have hedge : ∀ w' ∈ (edgeLoopWrites resolve config (friendEdgeAttrs config)
      f.base_url f.edges).1, ∀ k' a', w' = Write.node k' a' →
        a'.color = none ∨ a'.color = some config.friendNodeColor := by
    intro w' hw' k' a' hwa'
    rcases edgeLoopWrites_mem_shape resolve config (friendEdgeAttrs config)
        f.base_url f.edges w' hw' with ⟨s, hsh⟩ | ⟨t, ty, hsh⟩ | ⟨s, t, ty, hsh⟩
    · rw [hwa'] at hsh
      injection hsh with h₁ h₂
      rw [h₂]
      exact Or.inl rfl
    · rw [hwa'] at hsh
      injection hsh with h₁ h₂
      rw [h₂]
      cases ty <;> simp [targetWrite]
    · rw [hwa'] at hsh
      cases hsh
  unfold fileWrites at hw
  by_cases hpn : (declWrites resolve (friendNodeWrite config) f.base_url f.nodes).2 = true
  · rw [if_pos hpn] at hw
    rcases List.mem_append.mp hw with hw' | hw'
    · exact hdecl _ hw' k a rfl
    · exact hedge _ hw' k a rfl
  · rw [if_neg hpn] at hw
    exact hdecl _ hw k a rfl

theorem resultWrites_node_color (resolve : String → String → Option String)
    (config : GraphGardenConfig) (rs : List (Option GraphGardenFile)) :
    ∀ w ∈ rs.flatMap (resultWrites resolve config), ∀ k a, w = Write.node k a →
      a.color = none ∨ a.color = some config.friendNodeColor := by
  intro w hw k a hwa
  simp only [List.mem_flatMap] at hw
  obtain ⟨r, _, hw⟩ := hw
  cases r with
  | none => simp [resultWrites] at hw
  | some f => exact fileWrites_node_color resolve config f w hw k a hwa

theorem edgeLoopWrites_cons_bad (resolve : String → String → Option String)
    (config : GraphGardenConfig) (eAttrs : EdgeType → EdgeAttrs) (base : String)
    (e : GraphGardenEdge) (rest : List GraphGardenEdge)
    (hbad : resolve e.source base = none ∨ resolve e.target base = none) :
    edgeLoopWrites resolve config eAttrs base (e :: rest) = ([], false) := by
  rcases hbad with h | h
  · simp [edgeLoopWrites, h]
  · cases hs : resolve e.source base with
    | none => simp [edgeLoopWrites, hs]
    | some s => simp [edgeLoopWrites, hs, h]

theorem edgeLoopWrites_append_bad (resolve : String → String → Option String)
    (config : GraphGardenConfig) (eAttrs : EdgeType → EdgeAttrs) (base : String) :
    ∀ (pre : List GraphGardenEdge) (bad : GraphGardenEdge) (rest : List GraphGardenEdge),
      (∀ e ∈ pre, (resolve e.source base).isSome ∧ (resolve e.target base).isSome) →
      (resolve bad.source base = none ∨ resolve bad.target base = none) →
      edgeLoopWrites resolve config eAttrs base (pre ++ bad :: rest) =
        ((edgeLoopWrites resolve config eAttrs base pre).1, false) := by
  intro pre
  induction pre with
  | nil =>
    intro bad rest _ hbad
    rw [List.nil_append, edgeLoopWrites_cons_bad resolve config eAttrs base bad rest hbad]
    rfl
  | cons p pre' ih =>
    intro bad rest hall hbad
    obtain ⟨hs, ht⟩ := hall p (List.mem_cons_self p pre')
    obtain ⟨s, hs⟩ := Option.isSome_iff_exists.mp hs
    obtain ⟨t, ht⟩ := Option.isSome_iff_exists.mp ht
    rw [List.cons_append, edgeLoopWrites_cons resolve config eAttrs base p _ s t hs ht,
      edgeLoopWrites_cons resolve config eAttrs base p pre' s t hs ht,
      ih bad rest (fun e he => hall e (List.mem_cons_of_mem p he)) hbad]

/-! ### Claims -/

/-- C2: the merge operations are idempotent.  Re-merging a node or a directed
edge with identical arguments is a no-op beyond the first call; merging the
same protocol file's nodes and edges twice in succession — both the friend
merge of `fetchFriendGraphs` and the self loops of `buildGraph` — yields a
graph identical (same node list, edge list and attributes) to merging once. -/
theorem c2_merge_idempotent (resolve : String → String → Option String)
    (config : GraphGardenConfig) (file : GraphGardenFile) (g : Graph)
    (key : String) (w : NodeAttrs) (s t : String) (a : EdgeAttrs)
    (hn : (keys g.nodes).Nodup) (he : (keys g.edges).Nodup) :
    ((g.mergeNode key w).mergeNode key w = g.mergeNode key w) ∧
    ((g.mergeDirectedEdge s t a).mergeDirectedEdge s t a = g.mergeDirectedEdge s t a) ∧
    (mergeFriendFile resolve config file (mergeFriendFile resolve config file g) =
      mergeFriendFile resolve config file g) ∧
    (∀ g', applySelfFile resolve config file g = .ok g' →
      applySelfFile resolve config file g' = .ok g') := by
  refine ⟨mergeNode_idem g key w, mergeDirectedEdge_idem g s t a, ?_, ?_⟩
  · rw [mergeFriendFile_eq, mergeFriendFile_eq]
    exact applyWrites_replay g _ hn he
  · intro g' hok
    rw [applySelfFile_eq] at hok ⊢
    by_cases hflag : (selfWrites resolve config file).2 = true
    · rw [if_pos hflag] at hok
      have hg' : g' = g.applyWrites (selfWrites resolve config file).1 := by
        injection hok with h
        exact h.symm
      rw [if_pos hflag, hg', applyWrites_replay g _ hn he]
    · rw [if_neg hflag] at hok
      cases hok

theorem c2_merge_idempotent_witness :
    (keys localGraph.nodes).Nodup ∧ (keys localGraph.edges).Nodup ∧
    mergeFriendFile resolveM DEFAULT_CONFIG friendTestFile
        (mergeFriendFile resolveM DEFAULT_CONFIG friendTestFile localGraph) =
      mergeFriendFile resolveM DEFAULT_CONFIG friendTestFile localGraph :=
  ⟨by decide, by decide,
    (c2_merge_idempotent resolveM DEFAULT_CONFIG friendTestFile localGraph "k"
      NodeAttrs.empty "s" "t" ⟨.internal, "c", ratOf 1⟩ (by decide) (by decide)).2.2.1⟩

/-- C1 (amended): during friend merging a node that already carries a
provenance color keeps it or has it overwritten to `friendNodeColor`; it is
never cleared back to the colorless (Frontier) state, and colorless creation
only happens to absent nodes.  The original claim's "Local is never
overwritten to Friend" is false: a fetched file that declares the local URL
overwrites its color (see the counterexample). -/
theorem c1_provenance_never_cleared (resolve : String → String → Option String)
    (config : GraphGardenConfig) (g : Graph) (rs : List (Option GraphGardenFile))
    (k c : String) (h : g.nodeColor k = some c) :
    (mergeResults resolve config g rs).nodeColor k = some c ∨
      (mergeResults resolve config g rs).nodeColor k = some config.friendNodeColor := by
  have hc : (g.nodeAttrs k).bind (fun a => a.color) = some c := h
  have hmain : (mergeResults resolve config g rs).nodeColor k =
      ffold ((nodeWritesAt k (rs.flatMap (resultWrites resolve config))).map
        (fun a => a.color)) ((g.nodeAttrs k).bind (fun a => a.color)) := by
    rw [mergeResults_eq]
    show ((g.applyWrites (rs.flatMap (resultWrites resolve config))).nodeAttrs k).bind
      (fun a => a.color) = _
    rw [nodeAttrs_applyWrites, NWfold_field (fun a => a.color) (fun a b => rfl) rfl]
  have hcon : ∀ o ∈ (nodeWritesAt k (rs.flatMap (resultWrites resolve config))).map
      (fun a => a.color), o = none ∨ o = some config.friendNodeColor := by
    intro o ho
    simp only [List.mem_map] at ho
    obtain ⟨a, ha, rfl⟩ := ho
    simp only [nodeWritesAt, List.mem_flatMap] at ha
    obtain ⟨w, hw, ha⟩ := ha
    obtain ⟨r, hr, hwr⟩ := hw
    cases w with
    | node k' a' =>
      simp only [nodeWritesOf] at ha
      split at ha
      · simp only [List.mem_singleton] at ha
        subst ha
        cases r with
        | none => simp [resultWrites] at hwr
        | some f => exact fileWrites_node_color resolve config f _ hwr k' a rfl
      · simp at ha
    | edge s t e =>
      rw [mem_nodeWritesOf_edge ha]
      exact Or.inl rfl
  rw [hmain]
  rcases ffold_constrained _ ((g.nodeAttrs k).bind (fun a => a.color))
      (some config.friendNodeColor) hcon with h' | h'
  · left
    rw [h', hc]
  · right
    rw [h']

theorem c1_provenance_never_cleared_witness :
    localGraph.nodeColor "https://local.test/" = some "#6366f1" ∧
    ((mergeResults resolveM DEFAULT_CONFIG localGraph [some friendTestFile]).nodeColor
        "https://local.test/" = some "#6366f1" ∨
      (mergeResults resolveM DEFAULT_CONFIG localGraph [some friendTestFile]).nodeColor
        "https://local.test/" = some DEFAULT_CONFIG.friendNodeColor) :=
  ⟨by decide,
    c1_provenance_never_cleared resolveM DEFAULT_CONFIG localGraph [some friendTestFile]
      "https://local.test/" "#6366f1" (by decide)⟩

/-- C1 counterexample: the self-declared node `https://local.test/` holds the
Local provenance color after `buildGraph` (see `localGraph`), and merging a
fetched friend file that declares that very URL as one of its nodes
overwrites the color to `friendNodeColor` — Local is downgraded to Friend by
a later `mergeNode`. -/
theorem c1_local_overwritten_counterexample :
    localGraph.nodeColor "https://local.test/" = some DEFAULT_CONFIG.localNodeColor ∧
    (mergeResults resolveM DEFAULT_CONFIG localGraph [some localDeclFriendFile]).nodeColor
        "https://local.test/" = some DEFAULT_CONFIG.friendNodeColor ∧
    DEFAULT_CONFIG.friendNodeColor ≠ DEFAULT_CONFIG.localNodeColor :=
  ⟨by decide, by decide, by decide⟩

/-- C4: the orchestrator issues exactly one outbound fetch per distinct
parseable origin, each to the origin concatenated with the well-known path:
an origin reachable from at least one parseable friend entry appears exactly
once among the request URLs, and every request URL comes from some parseable
entry's origin (unparseable entries produce no fetch). -/
theorem c4_fetch_dedup (originOf : String → Option String) (friends : List String)
    (o : String) :
    ((∃ f ∈ friends, originOf f = some o) →
      countOcc (o ++ WELL_KNOWN_PATH) (fetchUrls originOf friends) = 1) ∧
    (∀ u ∈ fetchUrls originOf friends, ∃ f ∈ friends, ∃ o',
      originOf f = some o' ∧ u = o' ++ WELL_KNOWN_PATH) := by
  constructor
  · intro hex
    unfold fetchUrls
    rw [countOcc_map_append]
    exact countOcc_eq_one (nodup_fetchOrigins originOf friends)
      ((mem_fetchOrigins originOf friends o).mpr hex)
  · intro u hu
    unfold fetchUrls at hu
    simp only [List.mem_map] at hu
    obtain ⟨o', ho', rfl⟩ := hu
    obtain ⟨f, hf, hof⟩ := (mem_fetchOrigins originOf friends o').mp ho'
    exact ⟨f, hf, o', hof, rfl⟩

theorem c4_fetch_dedup_witness :
    (∃ f ∈ ["https://friend.test/", "https://friend.test/blog", "notaurl"],
      urlOriginM f = some "https://friend.test") ∧
    countOcc ("https://friend.test" ++ WELL_KNOWN_PATH)
      (fetchUrls urlOriginM ["https://friend.test/", "https://friend.test/blog", "notaurl"])
      = 1 :=
  ⟨by decide,
    (c4_fetch_dedup urlOriginM ["https://friend.test/", "https://friend.test/blog", "notaurl"]
      "https://friend.test").1 (by decide)⟩

/-- C5 (amended): a failed fetch outcome anywhere among the settled results
leaves the final graph exactly as if that origin had never been queried; and
whenever the succeeding file B's URLs actually resolve against its
`base_url`, every node and edge B declares is present, with the declared
title, the Friend color and the declared edge type (exact attributes under
pairwise-distinct resolved keys).  The original claim's unconditional
presence fails for validator-accepted files whose URLs do not resolve (see
the counterexample). -/
theorem c5_failure_isolation (resolve : String → String → Option String)
    (config : GraphGardenConfig) (g : Graph) (pre post : List (Option GraphGardenFile))
    (B : GraphGardenFile) :
    (mergeResults resolve config g (pre ++ none :: post) =
      mergeResults resolve config g (pre ++ post)) ∧
    ((∀ n ∈ B.nodes, (resolve n.url B.base_url).isSome) →
     (∀ e ∈ B.edges,
        (resolve e.source B.base_url).isSome ∧ (resolve e.target B.base_url).isSome) →
      (∀ n ∈ B.nodes, ∀ u, resolve n.url B.base_url = some u →
        ((mergeResults resolve config g [none, some B]).nodeAttrs u).isSome) ∧
      (∀ e ∈ B.edges, ∀ s t, resolve e.source B.base_url = some s →
        resolve e.target B.base_url = some t →
        ((mergeResults resolve config g [none, some B]).edgeAttrs s t).isSome) ∧
      ((B.nodes.map (fun n => resolve n.url B.base_url)).Nodup →
        ∀ n ∈ B.nodes, ∀ u, resolve n.url B.base_url = some u →
          ((mergeResults resolve config g [none, some B]).nodeAttrs u).bind
              (fun x => x.title) = some n.title ∧
            (mergeResults resolve config g [none, some B]).nodeColor u =
              some config.friendNodeColor) ∧
      ((B.edges.map (fun e =>
          (resolve e.source B.base_url, resolve e.target B.base_url))).Nodup →
        ∀ e ∈ B.edges, ∀ s t, resolve e.source B.base_url = some s →
          resolve e.target B.base_url = some t →
          (mergeResults resolve config g [none, some B]).edgeAttrs s t =
            some (friendEdgeAttrs config e.type))) := by
  refine ⟨mergeResults_skip_none resolve config g pre post, ?_⟩
  intro hallN hallE
  have hflag : (declWrites resolve (friendNodeWrite config) B.base_url B.nodes).2 = true :=
    declWrites_complete resolve (friendNodeWrite config) B.base_url B.nodes hallN
  have hFW : fileWrites resolve config B =
      (declWrites resolve (friendNodeWrite config) B.base_url B.nodes).1 ++
        (edgeLoopWrites resolve config (friendEdgeAttrs config) B.base_url B.edges).1 := by
    unfold fileWrites
    rw [if_pos hflag]
  have hM : mergeResults resolve config g [none, some B] =
      g.applyWrites (fileWrites resolve config B) := by
    rw [mergeResults_eq]
    simp [resultWrites]
  refine ⟨?_, ?_, ?_, ?_⟩
  · intro n hn u hu
    rw [hM]
    refine (alookup_isSome_iff_mem u _).mpr ?_
    refine nodeTouched_mem_applyWrites g _ ?_
    have hw := declWrites_mem_of resolve (friendNodeWrite config) B.base_url B.nodes n u
      hallN hn hu
    refine List.mem_flatMap.mpr
      ⟨Write.node u (friendNodeWrite config n.title), ?_, by simp [Write.nodeKeysOf]⟩
    rw [hFW]
    exact List.mem_append_left _ hw
  · intro e he s t hs ht
    rw [hM]
    refine (alookup_isSome_iff_mem (s, t) _).mpr ?_
    refine edgeTouched_mem_applyWrites g _ ?_
    have hw := edgeLoopWrites_mem_of resolve config (friendEdgeAttrs config) B.base_url
      B.edges e s t hallE he hs ht
    refine List.mem_flatMap.mpr
      ⟨Write.edge s t (friendEdgeAttrs config e.type), ?_, by simp [Write.edgeKeysOf]⟩
    rw [hFW]
    exact List.mem_append_right _ hw
  · intro hnodup n hn u hu
    have hAt : nodeWritesAt u (fileWrites resolve config B) =
        friendNodeWrite config n.title ::
          nodeWritesAt u (edgeLoopWrites resolve config (friendEdgeAttrs config)
            B.base_url B.edges).1 := by
      rw [hFW, nodeWritesAt_append,
        declWrites_at_unique resolve (friendNodeWrite config) B.base_url B.nodes n u
          hnodup hallN hn hu]
      rfl
    have hshape := edgeLoop_nodeWritesAt_shape resolve config (friendEdgeAttrs config)
      B.base_url B.edges u
    constructor
    · rw [hM, nodeAttrs_applyWrites,
        NWfold_field (fun x => x.title) (fun a b => rfl) rfl, hAt]
      show ffold (some n.title :: _) _ = _
      rw [show ∀ (l : List (Option String)) (v : Option String),
          ffold (some n.title :: l) v = ffold l (some n.title) from fun l v => rfl]
      refine ffold_all_none ?_ (some n.title)
      intro o ho
      simp only [List.mem_map] at ho
      obtain ⟨a, ha, rfl⟩ := ho
      exact (hshape a ha).1
    · show ((mergeResults resolve config g [none, some B]).nodeAttrs u).bind
        (fun x => x.color) = some config.friendNodeColor
      rw [hM, nodeAttrs_applyWrites,
        NWfold_field (fun x => x.color) (fun a b => rfl) rfl, hAt]
      show ffold (some config.friendNodeColor :: _) _ = _
      rw [show ∀ (l : List (Option String)) (v : Option String),
          ffold (some config.friendNodeColor :: l) v =
            ffold l (some config.friendNodeColor) from fun l v => rfl]
      have hcc : ∀ o ∈ (nodeWritesAt u (edgeLoopWrites resolve config (friendEdgeAttrs config)
          B.base_url B.edges).1).map (fun x => x.color),
          o = none ∨ o = some config.friendNodeColor := by
        intro o ho
        simp only [List.mem_map] at ho
        obtain ⟨a, ha, rfl⟩ := ho
        exact (hshape a ha).2.2
      rcases ffold_constrained _ (some config.friendNodeColor)
          (some config.friendNodeColor) hcc with h' | h' <;> exact h'
  · intro hnodup e he s t hs ht
    have hAt : edgeWritesAt (s, t) (fileWrites resolve config B) =
        [friendEdgeAttrs config e.type] := by
      rw [hFW, edgeWritesAt_append,
        declWrites_edgeAt resolve (friendNodeWrite config) B.base_url B.nodes (s, t),
        List.nil_append,
        edgeLoopWrites_at_unique resolve config (friendEdgeAttrs config) B.base_url B.edges
          e s t hnodup hallE he hs ht]
    rw [hM, edgeAttrs_applyWrites, hAt]
    rfl

theorem c5_failure_isolation_witness :
    (∀ n ∈ friendTestFile.nodes, (resolveM n.url friendTestFile.base_url).isSome) ∧
    ((mergeResults resolveM DEFAULT_CONFIG localGraph [none, some friendTestFile]).nodeAttrs
        "https://friend.test/blog/").bind (fun x => x.title) = some "Friend Blog" :=
  ⟨by decide,
    (((c5_failure_isolation resolveM DEFAULT_CONFIG localGraph [] [] friendTestFile).2
        (by decide) (by decide)).2.2.1 (by decide)
      { url := "/blog/", title := "Friend Blog" } (by decide)
      "https://friend.test/blog/" (by decide)).1⟩

/-- C5 counterexample: with outcome A failed and outcome B a valid file whose
`base_url` is the empty string (accepted by the validator), none of B's
declared nodes is present in the resulting graph: the claim's unconditional
"every node declared by B is present" is false. -/
theorem c5_isolation_counterexample :
    mergeResults resolveM DEFAULT_CONFIG emptyGraph [none, some emptyBaseFile] = emptyGraph ∧
    (mergeResults resolveM DEFAULT_CONFIG emptyGraph [none, some emptyBaseFile]).nodes = [] ∧
    emptyBaseFile.nodes ≠ [] :=
  ⟨by decide, by decide, by decide⟩

/-- C9 (amended): the final graph content is unchanged under any reordering
of the settled per-origin outcomes, provided distinct outcomes are
write-compatible — they agree on the attributes of any node or edge key they
both write (in particular whenever their declared canonical URLs are
disjoint).  Without that proviso the claim is false, see the
counterexample. -/
theorem c9_order_independent (resolve : String → String → Option String)
    (config : GraphGardenConfig) (g : Graph) {rs rs' : List (Option GraphGardenFile)}
    (hperm : rs.Perm rs') (hcompat : rs.Pairwise (ResultCompat resolve config)) :
    (mergeResults resolve config g rs).ContentEq (mergeResults resolve config g rs') :=
  mergeResults_perm resolve config hperm hcompat g

theorem c9_order_independent_witness :
    ([some friendTestFile, some fileX].Perm [some fileX, some friendTestFile]) ∧
    List.Pairwise (ResultCompat resolveM DEFAULT_CONFIG)
      [some friendTestFile, some fileX] ∧
    (mergeResults resolveM DEFAULT_CONFIG emptyGraph
        [some friendTestFile, some fileX]).ContentEq
      (mergeResults resolveM DEFAULT_CONFIG emptyGraph
        [some fileX, some friendTestFile]) :=
  ⟨List.Perm.swap (some fileX) (some friendTestFile) [], by decide,
    c9_order_independent resolveM DEFAULT_CONFIG emptyGraph
      (List.Perm.swap (some fileX) (some friendTestFile) []) (by decide)⟩

/-- C9 counterexample: two successfully fetched files declare the same
canonical URL `https://x.test/` with different titles; merging the settled
results in the two orders stores different titles, so the final graph
content depends on the merge order. -/
theorem c9_order_counterexample :
    ((mergeResults resolveM DEFAULT_CONFIG emptyGraph
        [some fileX, some fileY]).nodeAttrs "https://x.test/").bind (fun x => x.title)
      = some "Y Title" ∧
    ((mergeResults resolveM DEFAULT_CONFIG emptyGraph
        [some fileY, some fileX]).nodeAttrs "https://x.test/").bind (fun x => x.title)
      = some "X Title" ∧
    ("Y Title" : String) ≠ "X Title" :=
  ⟨by decide, by decide, by decide⟩

/-- C10: merging a fetched friend file is not atomic, in either loop.  First
conjunct: if the file's nodes split as `pre ++ bad :: rest` where every URL
of `pre` resolves and `bad`'s does not, the merge stops at `bad` inside the
nodes loop: the store ends up exactly as after merging `pre`'s node writes
(no rollback), and every node of `pre` is present.  Second conjunct: if all
node URLs resolve and the edges split as `pre ++ bad :: rest` where both
endpoints of every edge of `pre` resolve and an endpoint of `bad` does not,
the merge stops at `bad` inside the edges loop: the store ends up exactly as
after merging all declared node writes plus `pre`'s edge writes, every
declared node is present, and every edge of `pre` is present. -/
theorem c10_partial_merge (resolve : String → String → Option String)
    (config : GraphGardenConfig) (f : GraphGardenFile) (g : Graph) :
    (∀ (pre : List GraphGardenNode) (bad : GraphGardenNode) (rest : List GraphGardenNode),
      f.nodes = pre ++ bad :: rest →
      (∀ n ∈ pre, (resolve n.url f.base_url).isSome) →
      resolve bad.url f.base_url = none →
      (mergeFriendFile resolve config f g =
        g.applyWrites (declWrites resolve (friendNodeWrite config) f.base_url pre).1) ∧
      (∀ n ∈ pre, ∀ u, resolve n.url f.base_url = some u →
        ((mergeFriendFile resolve config f g).nodeAttrs u).isSome)) ∧
    (∀ (pre : List GraphGardenEdge) (bad : GraphGardenEdge) (rest : List GraphGardenEdge),
      (∀ n ∈ f.nodes, (resolve n.url f.base_url).isSome) →
      f.edges = pre ++ bad :: rest →
      (∀ e ∈ pre, (resolve e.source f.base_url).isSome ∧
        (resolve e.target f.base_url).isSome) →
      (resolve bad.source f.base_url = none ∨ resolve bad.target f.base_url = none) →
      (mergeFriendFile resolve config f g =
        g.applyWrites ((declWrites resolve (friendNodeWrite config) f.base_url f.nodes).1 ++
          (edgeLoopWrites resolve config (friendEdgeAttrs config) f.base_url pre).1)) ∧
      (∀ n ∈ f.nodes, ∀ u, resolve n.url f.base_url = some u →
        ((mergeFriendFile resolve config f g).nodeAttrs u).isSome) ∧
      (∀ e ∈ pre, ∀ s t, resolve e.source f.base_url = some s →
        resolve e.target f.base_url = some t →
        ((mergeFriendFile resolve config f g).edgeAttrs s t).isSome)) := by
  constructor
  · intro pre bad rest hsplit hpre hbad
    have hdw := declWrites_append_bad resolve (friendNodeWrite config) f.base_url pre bad rest
      hpre hbad
    have hmff : mergeFriendFile resolve config f g =
        g.applyWrites (declWrites resolve (friendNodeWrite config) f.base_url pre).1 := by
      rw [mergeFriendFile_eq]
      unfold fileWrites
      rw [hsplit, hdw]
      simp
    refine ⟨hmff, ?_⟩
    intro n hn u hu
    rw [hmff]
    refine (alookup_isSome_iff_mem u _).mpr ?_
    refine nodeTouched_mem_applyWrites g _ ?_
    have hw := declWrites_mem_of resolve (friendNodeWrite config) f.base_url pre n u hpre hn hu
    exact List.mem_flatMap.mpr
      ⟨Write.node u (friendNodeWrite config n.title), hw, by simp [Write.nodeKeysOf]⟩
  · intro pre bad rest hallN hsplit hpre hbad
    have hflag : (declWrites resolve (friendNodeWrite config) f.base_url f.nodes).2 = true :=
      declWrites_complete resolve (friendNodeWrite config) f.base_url f.nodes hallN
    have heb := edgeLoopWrites_append_bad resolve config (friendEdgeAttrs config) f.base_url
      pre bad rest hpre hbad
    have hmff : mergeFriendFile resolve config f g =
        g.applyWrites ((declWrites resolve (friendNodeWrite config) f.base_url f.nodes).1 ++
          (edgeLoopWrites resolve config (friendEdgeAttrs config) f.base_url pre).1) := by
      rw [mergeFriendFile_eq]
      unfold fileWrites
      rw [if_pos hflag, hsplit, heb]
    refine ⟨hmff, ?_, ?_⟩
    · intro n hn u hu
      rw [hmff]
      refine (alookup_isSome_iff_mem u _).mpr ?_
      refine nodeTouched_mem_applyWrites g _ ?_
      have hw := declWrites_mem_of resolve (friendNodeWrite config) f.base_url f.nodes n u
        hallN hn hu
      refine List.mem_flatMap.mpr
        ⟨Write.node u (friendNodeWrite config n.title), ?_, by simp [Write.nodeKeysOf]⟩
      exact List.mem_append_left _ hw
    · intro e he s t hs ht
      rw [hmff]
      refine (alookup_isSome_iff_mem (s, t) _).mpr ?_
      refine edgeTouched_mem_applyWrites g _ ?_
      have hw := edgeLoopWrites_mem_of resolve config (friendEdgeAttrs config) f.base_url
        pre e s t hpre he hs ht
      refine List.mem_flatMap.mpr
        ⟨Write.edge s t (friendEdgeAttrs config e.type), ?_, by simp [Write.edgeKeysOf]⟩
      exact List.mem_append_right _ hw

theorem c10_partial_merge_witness :
    resolveM "http://" partialFriendFile.base_url = none ∧
    ((mergeFriendFile resolveM DEFAULT_CONFIG partialFriendFile emptyGraph).nodeAttrs
      "https://friend.test/first").isSome ∧
    resolveM "http://" partialEdgeFile.base_url = none ∧
    ((mergeFriendFile resolveM DEFAULT_CONFIG partialEdgeFile emptyGraph).edgeAttrs
      "https://friend.test/" "https://friend.test/ok").isSome :=
  ⟨by decide,
    ((c10_partial_merge resolveM DEFAULT_CONFIG partialFriendFile emptyGraph).1
        [{ url := "/first", title := "First" }] { url := "http://", title := "Bad" }
        [{ url := "/last", title := "Last" }] rfl (by decide) (by decide)).2
      { url := "/first", title := "First" } (by decide) "https://friend.test/first"
      (by decide),
    by decide,
    (((c10_partial_merge resolveM DEFAULT_CONFIG partialEdgeFile emptyGraph).2
        [{ source := "/", target := "/ok", type := .internal }]
        { source := "/", target := "http://", type := .friend }
        [{ source := "/", target := "/after", type := .internal }]
        (by decide) rfl (by decide) (Or.inr (by decide))).2.2
      { source := "/", target := "/ok", type := .internal } (by decide)
      "https://friend.test/" "https://friend.test/ok" (by decide) (by decide))⟩

/-- C3: the protocol file validator rejects a decoded object whose `friends`
field is absent — `Array.isArray(obj.friends)` fails on `undefined` — even
though the identical object with a string-array `friends` passes (and one
with a non-string entry fails as expected).  The package's own test suite
("missing friends is valid") and the spec both require absent `friends` to be
accepted, so the code is the outlier. -/
theorem c3_validator_friends_absent :
    isGraphGardenFile noFriendsBody = false ∧
    isGraphGardenFile withFriendsBody = true ∧
    isGraphGardenFile badFriendsBody = false :=
  ⟨by decide, by decide, by decide⟩

/-- C6: in the spec scenario a network-failed friend fetch leaves the graph
literally identical to the pre-fetch graph (2 nodes, 1 edge — the frame part
of the claim holds), but the node `https://friend.test/` carries the Friend
color `friendNodeColor`, assigned already by `buildGraph` to friend-edge
targets, both before and after the failed fetch — there is no Frontier
provenance in this code, contradicting the claim and the package's own
tests, which expect `frontierNodeColor` here. -/
theorem c6_failed_fetch_frame :
    buildGraph resolveM DEFAULT_CONFIG localTestFile = .ok localGraph ∧
    fetchFriendGraphs resolveM urlOriginM DEFAULT_CONFIG localGraph localTestFile.friends
      (fun _ => .rejected) = localGraph ∧
    localGraph.nodes.length = 2 ∧ localGraph.edges.length = 1 ∧
    localGraph.nodeColor "https://friend.test/" = some DEFAULT_CONFIG.friendNodeColor :=
  ⟨rfl, by decide, rfl, rfl, by decide⟩

/-- C7 (amended): URL resolution failure is an explicit error signal, and
`fetchFriendGraphs` treats it as skip-and-warn — an unparseable friend entry
is dropped without affecting any other entry's fetch — but `buildGraph` does
not: a single unparseable node URL makes the whole local build fail with an
error, so no graph with the remaining nodes is returned (the exception
propagates to `connectedCallback`'s catch-all). -/
theorem c7_invalid_url_handling (resolve : String → String → Option String)
    (originOf : String → Option String) (config : GraphGardenConfig)
    (file : GraphGardenFile) (bad : String) (pre post : List String)
    (hbadurl : ∃ n ∈ file.nodes, resolve n.url file.base_url = none)
    (hbadfriend : originOf bad = none) :
    buildGraph resolve config file = .error () ∧
    fetchUrls originOf (pre ++ bad :: post) = fetchUrls originOf (pre ++ post) := by
  constructor
  · unfold buildGraph
    rw [applySelfFile_eq]
    have hpn : (declWrites resolve (localNodeWrite config) file.base_url file.nodes).2
        = false :=
      declWrites_incomplete resolve (localNodeWrite config) file.base_url file.nodes hbadurl
    have hflag : (selfWrites resolve config file).2 = false := by
      unfold selfWrites
      simp [hpn]
    rw [if_neg (by rw [hflag]; exact Bool.false_ne_true)]
  · unfold fetchUrls
    rw [fetchOrigins_skip_invalid originOf bad hbadfriend pre post]

theorem c7_invalid_url_handling_witness :
    (∃ n ∈ badUrlFile.nodes, resolveM n.url badUrlFile.base_url = none) ∧
    urlOriginM "notaurl" = none ∧
    buildGraph resolveM DEFAULT_CONFIG badUrlFile = .error () :=
  ⟨by decide, by decide,
    (c7_invalid_url_handling resolveM urlOriginM DEFAULT_CONFIG badUrlFile "notaurl" [] []
      (by decide) (by decide)).1⟩

/-- C7 counterexample: `badUrlFile` declares `/good` (which resolves fine)
and `http://` (which does not); `buildGraph` returns an error instead of a
graph containing the other declared node, so "building still completes and
returns a graph containing all the other declared nodes" is false. -/
theorem c7_build_fatal_counterexample :
    buildGraph resolveM DEFAULT_CONFIG badUrlFile = .error () ∧
    resolveM "/good" badUrlFile.base_url = some "https://local.test/good" ∧
    resolveM "http://" badUrlFile.base_url = none :=
  ⟨rfl, by decide, by decide⟩

/-- C8 (amended): `connectedCallback` drives the friend-fetch phase with
exactly the self file's `friends` list and has no fallback derived from
friend-typed edges: a valid body with an empty `friends` list produces no
fetches even when friend edges are present, and a body omitting `friends`
fails validation outright and produces no fetches at all. -/
theorem c8_no_edge_fallback (originOf : String → Option String) (body : Json) :
    ((fileOfJson body).friends = [] → connectedFetches originOf body = []) ∧
    (getProp body "friends" = none →
      isGraphGardenFile body = false ∧ connectedFetches originOf body = []) := by
  constructor
  · intro hempty
    unfold connectedFetches
    by_cases hv : isGraphGardenFile body = true
    · rw [if_pos hv, hempty]
      rfl
    · rw [if_neg hv]
  · intro habsent
    have hv : isGraphGardenFile body = false := by
      simp [isGraphGardenFile, habsent]
    refine ⟨hv, ?_⟩
    unfold connectedFetches
    rw [if_neg (by rw [hv]; exact Bool.false_ne_true)]

theorem c8_no_edge_fallback_witness :
    (fileOfJson emptyFriendsBody).friends = [] ∧
    connectedFetches urlOriginM emptyFriendsBody = [] ∧
    getProp noFriendsBody "friends" = none ∧
    isGraphGardenFile noFriendsBody = false :=
  ⟨by decide, (c8_no_edge_fallback urlOriginM emptyFriendsBody).1 (by decide), rfl,
    ((c8_no_edge_fallback urlOriginM noFriendsBody).2 rfl).1⟩

/-- C8 counterexample: `noFriendsBody` declares a friend-typed edge whose
target origin is `https://friend.test` but omits the `friends` field; the
controller issues no fetch at all — in particular none to that origin's
well-known URL — contradicting the claimed fallback. -/
theorem c8_fallback_counterexample :
    connectedFetches urlOriginM noFriendsBody = [] ∧
    (fileOfJson noFriendsBody).edges =
      [{ source := "/", target := "https://friend.test/", type := .friend }] ∧
    ¬("https://friend.test" ++ WELL_KNOWN_PATH) ∈ connectedFetches urlOriginM noFriendsBody :=
  ⟨by decide, by decide, by decide⟩

end GraphGarden
